import Mathlib

/-! The IRC line decoder `ParseMessage` of the package `ircmsg`.

A shallow embedding of `src/ircmsg.go` and theorems about it.

Modelling conventions.

* A Go `string` is modelled as `Str = List Char`: the text of the string, one
  `Char` per code point (the inputs considered are valid UTF-8 text).  The source
  only ever indexes and slices a string at positions returned by
  `strings.Index` for the ASCII needles `" "`, `"!"`, `"@"`, `" :"`, so a
  position counted in code points selects the same substrings as the position
  counted in bytes.
* A run-time panic of Go (index or slice bounds out of range) is the explicit
  outcome `Failure.panic`; the declared error value `CannotParseMessageError`
  is the outcome `Failure.CannotParseMessageError`.
* `time.Now()` is the parameter `now` of `ParseMessage`.
-/

namespace Ircmsg

/-- A Go string, as the list of its characters. -/
abbrev Str := List Char

/-! ## The functions of the Go standard library used by the source -/

/-- The terminator `"\r\n"`. -/
def crlf : Str := ['\r', '\n']

/-- Go `strings.HasSuffix(s, suffix)`. -/
def HasSuffix (s suffix : Str) : Bool :=
  suffix.length ≤ s.length && s.drop (s.length - suffix.length) == suffix

/-- Go `strings.TrimSuffix(s, suffix)`: `s` without the trailing `suffix`, or `s`
itself when it does not end in `suffix`. -/
def TrimSuffix (s suffix : Str) : Str :=
  if HasSuffix s suffix then s.take (s.length - suffix.length) else s

/-- Go `strings.Index(s, substr)`: the position of the first occurrence of
`substr` in `s`; `none` stands for the result `-1`. -/
def Index : Str → Str → Option Nat
  | [], substr => if substr.isEmpty then some 0 else none
  | c :: t, substr =>
    if substr.isPrefixOf (c :: t) then some 0
    else (Index t substr).map (· + 1)

/-- Go `strings.SplitN(s, sep, n)` for a non-empty `sep` and `n ≥ 0`: at most `n`
pieces, the last one being the unsplit rest. -/
def SplitN (s sep : Str) : Nat → List Str
  | 0 => []
  | 1 => [s]
  | n + 2 =>
    match Index s sep with
    | none => [s]
    | some m => s.take m :: SplitN (s.drop (m + sep.length)) sep (n + 1)

/-- Go `unicode.IsSpace`: the Latin-1 spaces `'\t' '\n' '\v' '\f' '\r' ' '`, U+0085,
U+00A0, and beyond Latin-1 the code points of the `White_Space` property. -/
def IsSpace (r : Char) : Bool :=
  let n := r.toNat
  (9 ≤ n && n ≤ 13) || n == 32 || n == 0x85 || n == 0xA0 || n == 0x1680 ||
  (0x2000 ≤ n && n ≤ 0x200A) || n == 0x2028 || n == 0x2029 || n == 0x202F ||
  n == 0x205F || n == 0x3000

/-- The scan of Go `strings.Fields`: `cur` holds, in reverse, the characters of the
field being read. -/
def fieldsFrom (cur : Str) : Str → List Str
  | [] => if cur.isEmpty then [] else [cur.reverse]
  | c :: t =>
    if IsSpace c then
      if cur.isEmpty then fieldsFrom [] t else cur.reverse :: fieldsFrom [] t
    else fieldsFrom (c :: cur) t

/-- Go `strings.Fields(s)`: the maximal runs of non-space characters of `s`, in
order; empty when `s` holds only white space. -/
def Fields (s : Str) : List Str := fieldsFrom [] s

/-! ## Outcomes -/

/-- The two ways in which a call of `ParseMessage` yields no message. -/
inductive Failure where
  /-- The declared error value, returned as `(nil, CannotParseMessageError)`. -/
  | CannotParseMessageError
  /-- A run-time panic: an index or a slice bound out of range. -/
  | panic
deriving DecidableEq, Repr

/-- Go `s[lo:hi]`: panics unless `lo ≤ hi ≤ len(s)`. -/
def slice (s : Str) (lo hi : Nat) : Except Failure Str :=
  if lo ≤ hi ∧ hi ≤ s.length then .ok ((s.take hi).drop lo) else .error .panic

/-- Go `a[i]`, on a string or on a slice: panics unless `i < len(a)`. -/
def elemAt {α : Type} (a : List α) (i : Nat) : Except Failure α :=
  match a.get? i with
  | some x => .ok x
  | none => .error .panic

/-! ## The source: `Message`, `ParseMessage`, `GetDMString` -/

/-- The struct `Message` (ircmsg.go, lines 12-23). -/
structure Message where
  Prefix : Str
  Nick : Str
  Ident : Str
  Host : Str
  Command : Str
  Trail : Str
  Params : List Str
  SentAt : Nat
  RawMsg : Str
  IsParsed : Bool
deriving DecidableEq, Repr

/-- The zero value of `Message`. -/
def Message.zero : Message :=
  { Prefix := [], Nick := [], Ident := [], Host := [], Command := [], Trail := [],
    Params := [], SentAt := 0, RawMsg := [], IsParsed := false }

/-- Lines 50-67 of `ParseMessage`: the prefix.  Returns the message and the text
that is left to process. -/
def parseOrigin (msg : Message) (rawMsg : Str) : Except Failure (Message × Str) := do
  if (← elemAt rawMsg 0) = ':' then
    match Index rawMsg [' '] with
    | some index =>
      let msg := { msg with Prefix := ← slice rawMsg 1 index }
      let rawMsg ← slice rawMsg (index + 1) rawMsg.length
      match Index msg.Prefix ['!'], Index msg.Prefix ['@'] with
      | some nickIndex, some userIndex =>
        let msg := { msg with Nick := ← slice msg.Prefix 0 nickIndex }
        let msg := { msg with Ident := ← slice msg.Prefix (nickIndex + 1) userIndex }
        let msg := { msg with Host := ← slice msg.Prefix (userIndex + 1) msg.Prefix.length }
        pure (msg, rawMsg)
      | _, _ => pure (msg, rawMsg)
    | none => throw .CannotParseMessageError
  else if (← elemAt rawMsg 0) = ' ' then
    throw .CannotParseMessageError
  else
    pure (msg, rawMsg)

/-- Lines 69-81 of `ParseMessage`: trailing argument, command and parameters. -/
def parseCommand (msg : Message) (rawMsg : Str) : Except Failure Message := do
  let tmpCommand := SplitN rawMsg [' ', ':'] 2
  let msg ←
    if tmpCommand.length > 1 then do
      let msg := { msg with Params := Fields (← elemAt tmpCommand 0) }
      pure { msg with Trail := ← elemAt tmpCommand 1 }
    else
      pure { msg with Params := Fields (← elemAt tmpCommand 0) }
  let msg := { msg with Command := ← elemAt msg.Params 0 }
  let msg := if msg.Params.length > 1 then { msg with Params := msg.Params.drop 1 } else msg
  pure { msg with IsParsed := true }

/-- The function `ParseMessage` (ircmsg.go, lines 31-82); `now` is the value of
`time.Now()`. -/
def ParseMessage (now : Nat) (rawMsg : Str) : Except Failure Message := do
  let rawMsg := TrimSuffix rawMsg crlf
  let msg := { Message.zero with SentAt := now, RawMsg := rawMsg }
  let (msg, rawMsg) ← parseOrigin msg rawMsg
  parseCommand msg rawMsg

/-- Go `fmt.Sprintf(format, a...)` for a format whose only verb is `%s` and for
string operands: each `%s` is replaced by the next operand, every other character
is copied. -/
def Sprintf : Str → List Str → Str
  | '%' :: 's' :: format, a :: as => a ++ Sprintf format as
  | '%' :: 's' :: format, [] => "%!s(MISSING)".toList ++ Sprintf format []
  | c :: format, as => c :: Sprintf format as
  | [], _ => []

/-- The method `GetDMString` (ircmsg.go, lines 84-87). -/
def GetDMString (m : Message) (newMsg : Str) : Str :=
  let dm := Sprintf "PRIVMSG %s :%s".toList [m.Nick, newMsg]
  dm

/-! ## Views used in the proofs

`originView` and `commandView` compute, without the message record, what lines
50-67 and lines 69-81 of `ParseMessage` compute; `ParseMessage_eq` relates them to
the source. -/

/-- What lines 50-67 extract from the stripped line. -/
structure Origin where
  Prefix : Str
  Nick : Str
  Ident : Str
  Host : Str
  rest : Str
deriving DecidableEq, Repr

/-- Lines 50-67 as a function of the stripped line alone. -/
def originView (s : Str) : Except Failure Origin :=
  match s with
  | [] => .error .panic
  | c :: _ =>
    if c = ':' then
      match Index s [' '] with
      | none => .error .CannotParseMessageError
      | some i =>
        let p := (s.take i).drop 1
        match Index p ['!'], Index p ['@'] with
        | some n, some u =>
          if n + 1 ≤ u then
            .ok ⟨p, p.take n, (p.take u).drop (n + 1), p.drop (u + 1), s.drop (i + 1)⟩
          else .error .panic
        | _, _ => .ok ⟨p, [], [], [], s.drop (i + 1)⟩
    else if c = ' ' then .error .CannotParseMessageError
    else .ok ⟨[], [], [], [], s⟩

/-- The command+middle segment of a prefix-stripped remainder: the text before the
first `" :"`, or all of it when there is none. -/
def cmdSegment (r : Str) : Str :=
  match Index r [' ', ':'] with
  | none => r
  | some m => r.take m

/-- The trailing argument of a prefix-stripped remainder: the text after the first
`" :"`, when there is one. -/
def trailing (r : Str) : Option Str :=
  match Index r [' ', ':'] with
  | none => none
  | some m => some (r.drop (m + 2))

/-- What lines 69-79 extract from the prefix-stripped remainder. -/
structure Cmd where
  Command : Str
  Params : List Str
  Trail : Option Str
deriving DecidableEq, Repr

/-- Lines 69-79 as a function of the prefix-stripped remainder alone. -/
def commandView (r : Str) : Except Failure Cmd :=
  match Fields (cmdSegment r) with
  | [] => .error .panic
  | [c] => .ok ⟨c, [c], trailing r⟩
  | c :: p :: ps => .ok ⟨c, p :: ps, trailing r⟩

/-- The message that `ParseMessage` returns, from what the views extract. -/
def assemble (now : Nat) (s : Str) (o : Origin) (c : Cmd) : Message :=
  { Prefix := o.Prefix, Nick := o.Nick, Ident := o.Ident, Host := o.Host,
    Command := c.Command, Trail := c.Trail.getD [], Params := c.Params,
    SentAt := now, RawMsg := s, IsParsed := true }

/-! ## Notions of the specification -/

/-- The separator `" :"` that introduces the trailing argument. -/
def trailSep : Str := [' ', ':']

/-- The text after the first space of `s` (empty when `s` has no space). -/
def afterFirstSpace (s : Str) : Str := (s.dropWhile (· != ' ')).drop 1

/-- The prefix-stripped remainder of a line: the line without its terminator and,
when that starts with `':'`, without everything up to and including its first
space. -/
def remainder (line : Str) : Str :=
  match TrimSuffix line crlf with
  | ':' :: t => afterFirstSpace t
  | s => s

/-- The message as it stands when line 69 is reached: nothing of the command, the
parameters and the trailing argument is set yet. -/
def beforeCommand (m : Message) : Message :=
  { m with Command := [], Trail := [], Params := [], IsParsed := false }

/-- The origin of a stripped line that starts with `':'`: the text between that
`':'` and the first space. -/
def originOf (s : Str) : Str := (s.drop 1).takeWhile (· != ' ')

/-- The stripped line `s` starts with `':'`, contains a space, and its origin
contains both `'!'` and `'@'`, the first `'@'` standing before the first `'!'`
(no `'!'` in the text before the first `'@'`). -/
def reversedOrigin (s : Str) : Prop :=
  s.head? = some ':' ∧ ' ' ∈ s ∧ '!' ∈ originOf s ∧ '@' ∈ originOf s ∧
    '!' ∉ (originOf s).takeWhile (· != '@')

/-- The line passes the prefix checks and its command+middle segment holds no
character that is not white space: the stripped line is non-empty, does not start
with a space, is not a `reversedOrigin`, contains a space when it starts with
`':'`, and the part of the prefix-stripped remainder before its first `" :"` (all
of it when there is none) is white space only. -/
def noToken (line : Str) : Prop :=
  TrimSuffix line crlf ≠ [] ∧ (TrimSuffix line crlf).head? ≠ some ' ' ∧
    ¬ reversedOrigin (TrimSuffix line crlf) ∧
    ((TrimSuffix line crlf).head? = some ':' → ' ' ∈ TrimSuffix line crlf) ∧
    ∀ c ∈ cmdSegment (remainder line), IsSpace c = true

/-! ## The standard-library functions: basic facts -/

theorem Index_none {s sep : Str} (h : Index s sep = none) : ¬ sep <:+: s := by
  induction s with
  | nil =>
    intro hin
    have : sep = [] := by simpa using hin
    subst this
    simp [Index] at h
  | cons c t ih =>
    simp only [Index] at h
    split at h
    · simp at h
    · rename_i hp
      intro hin
      rcases List.infix_cons_iff.mp hin with h1 | h1
      · exact hp (List.isPrefixOf_iff_prefix.mpr h1)
      · cases ht : Index t sep with
        | none => exact ih ht h1
        | some j => simp [ht] at h

theorem Index_some {s sep : Str} {i : Nat} (h : Index s sep = some i) :
    s = s.take i ++ sep ++ s.drop (i + sep.length) := by
  induction s generalizing i with
  | nil =>
    simp only [Index] at h
    split at h
    · rename_i he
      have : sep = [] := by simpa using he
      subst this
      simp
    · simp at h
  | cons c t ih =>
    simp only [Index] at h
    split at h
    · rename_i hp
      obtain ⟨r, hr⟩ := List.isPrefixOf_iff_prefix.mp hp
      simp only [Option.some.injEq] at h
      subst h
      rw [← hr]
      simp
    · cases ht : Index t sep with
      | none => simp [ht] at h
      | some j =>
        simp [ht] at h
        subst h
        have := ih ht
        simp only [List.take_succ_cons, List.cons_append, Nat.add_right_comm j 1, List.drop_succ_cons]
        exact congrArg (c :: ·) this

theorem Index_some_first {s sep : Str} {i : Nat} (h : Index s sep = some i)
    (pre post : Str) (hs : s = pre ++ sep ++ post) : i ≤ pre.length := by
  induction s generalizing i pre with
  | nil =>
    simp only [Index] at h
    split at h
    · simp at h; omega
    · simp at h
  | cons c t ih =>
    simp only [Index] at h
    split at h
    · simp at h; omega
    · rename_i hp
      cases ht : Index t sep with
      | none => simp [ht] at h
      | some j =>
        simp [ht] at h
        subst h
        cases pre with
        | nil =>
          exfalso
          apply hp
          rw [List.isPrefixOf_iff_prefix, hs]
          exact ⟨post, by simp⟩
        | cons a pre' =>
          simp only [List.cons_append, List.cons.injEq] at hs
          have := ih ht pre' hs.2
          simp
          omega

theorem Index_bound {s sep : Str} {i : Nat} (h : Index s sep = some i) (hsep : sep ≠ []) :
    i + sep.length ≤ s.length := by
  have h1 := congrArg List.length (Index_some h)
  have h2 : 0 < sep.length := List.length_pos.mpr hsep
  simp only [List.length_append, List.length_take, List.length_drop] at h1
  omega

theorem Index_one_mem {s : Str} {a : Char} {i : Nat} (h : Index s [a] = some i) : a ∈ s := by
  rw [Index_some h]
  simp

theorem Index_one_none {s : Str} {a : Char} (h : Index s [a] = none) : a ∉ s := by
  intro hm
  obtain ⟨pre, post, hpp⟩ := List.append_of_mem hm
  exact Index_none h ⟨pre, post, by simp [hpp]⟩

theorem Index_one_not_mem_take {s : Str} {a : Char} {i : Nat} (h : Index s [a] = some i) :
    a ∉ s.take i := by
  intro hm
  obtain ⟨pre, post, hpp⟩ := List.append_of_mem hm
  have hb := Index_bound h (by simp)
  have hs : s = pre ++ [a] ++ (post ++ s.drop i) := by
    conv_lhs => rw [← List.take_append_drop i s, hpp]
    simp
  have h1 := Index_some_first h pre _ hs
  have h2 := congrArg List.length hpp
  simp only [List.length_take, List.length_append, List.length_cons] at h2
  omega

/-! ## The source in terms of the views -/

theorem parseCommand_eq (msg : Message) (r : Str) :
    parseCommand msg r =
      (commandView r).map fun v =>
        { msg with Command := v.Command, Params := v.Params,
                   Trail := v.Trail.getD msg.Trail, IsParsed := true } := by
  unfold parseCommand commandView cmdSegment trailing SplitN
  cases hi : Index r [' ', ':'] with
  | none =>
    simp only [List.length_singleton, gt_iff_lt, lt_self_iff_false, ↓reduceIte, elemAt,
      List.get?_cons_zero]
    rcases hf : Fields r with _ | ⟨c, _ | ⟨p, ps⟩⟩ <;>
      simp [hf, bind, Except.bind, pure, Except.pure, Except.map]
  | some m =>
    simp only [SplitN, List.length_cons, List.length_singleton, elemAt]
    rcases hf : Fields (r.take m) with _ | ⟨c, _ | ⟨p, ps⟩⟩ <;>
      simp [hf, bind, Except.bind, pure, Except.pure, Except.map]

theorem slice_eq {s : Str} {lo hi : Nat} (h1 : lo ≤ hi) (h2 : hi ≤ s.length) :
    slice s lo hi = .ok ((s.take hi).drop lo) := by
  simp [slice, h1, h2]

theorem parseOrigin_eq (msg : Message) (s : Str)
    (hmsg : msg.Prefix = [] ∧ msg.Nick = [] ∧ msg.Ident = [] ∧ msg.Host = []) :
    parseOrigin msg s =
      (originView s).map fun o =>
        ({ msg with Prefix := o.Prefix, Nick := o.Nick, Ident := o.Ident, Host := o.Host },
          o.rest) := by
  obtain ⟨hp, hn, hi, hh⟩ := hmsg
  have hmsg' : msg = { msg with Prefix := [], Nick := [], Ident := [], Host := [] } := by
    cases msg; simp_all
  unfold parseOrigin originView
  cases s with
  | nil => rfl
  | cons c t =>
    simp only [elemAt, List.get?_cons_zero, bind, Except.bind]
    by_cases hc : c = ':'
    · subst hc
      simp only [↓reduceIte]
      cases hidx : Index (':' :: t) [' '] with
      | none => rfl
      | some i =>
        have hb := Index_bound hidx (by simp)
        have hi0 : 1 ≤ i := by
          cases i with
          | zero => simp [Index] at hidx
          | succ k => omega
        simp only [List.length_singleton] at hb
        simp only [slice_eq hi0 (by omega : i ≤ (':' :: t).length),
          slice_eq (by omega : i + 1 ≤ (':' :: t).length) (le_refl _), List.take_length]
        generalize hpq : List.drop 1 (List.take i (':' :: t)) = p
        cases hn' : Index p ['!'] with
        | none => simp [Except.map, pure, Except.pure, hn, hi, hh]
        | some n =>
          cases hu' : Index p ['@'] with
          | none => simp [Except.map, pure, Except.pure, hn, hi, hh]
          | some u =>
            have hbn := Index_bound hn' (by simp)
            have hbu := Index_bound hu' (by simp)
            simp only [List.length_singleton] at hbn hbu
            simp only [slice_eq (Nat.zero_le n) (by omega : n ≤ p.length), List.drop_zero]
            by_cases hnu : n + 1 ≤ u
            · simp [slice_eq hnu (by omega : u ≤ p.length),
                slice_eq (by omega : u + 1 ≤ p.length) (le_refl _), hnu, Except.map, pure,
                Except.pure]
            · simp [slice, hnu, Except.map]
    · by_cases hc2 : c = ' '
      · subst hc2
        simp [Except.map, throw, throwThe, MonadExceptOf.throw]
      · simp only [hc, hc2, ↓reduceIte, Except.map, pure, Except.pure]
        rw [← hmsg']

theorem ParseMessage_eq (now : Nat) (line : Str) :
    ParseMessage now line =
      match originView (TrimSuffix line crlf) with
      | .error e => .error e
      | .ok o =>
        match commandView o.rest with
        | .error e => .error e
        | .ok c => .ok (assemble now (TrimSuffix line crlf) o c) := by
  unfold ParseMessage
  simp only [bind, Except.bind]
  rw [parseOrigin_eq _ _ ⟨rfl, rfl, rfl, rfl⟩]
  cases ho : originView (TrimSuffix line crlf) with
  | error e => rfl
  | ok o =>
    simp only [Except.map, parseCommand_eq]
    cases hc : commandView o.rest with
    | error e => rfl
    | ok c => rfl

theorem ParseMessage_ok_iff (now : Nat) (line : Str) (m : Message) :
    ParseMessage now line = .ok m ↔
      ∃ o c, originView (TrimSuffix line crlf) = .ok o ∧ commandView o.rest = .ok c ∧
        m = assemble now (TrimSuffix line crlf) o c := by
  rw [ParseMessage_eq]
  cases ho : originView (TrimSuffix line crlf) with
  | error e => simp
  | ok o =>
    cases hc : commandView o.rest with
    | error e => simp [hc]
    | ok c =>
      simp only [hc, Except.ok.injEq, exists_and_left, exists_eq_left']
      exact eq_comm

/-! ## The terminator and the remainder -/

theorem HasSuffix_iff (s w : Str) : HasSuffix s w = true ↔ ∃ t, s = t ++ w := by
  unfold HasSuffix
  simp only [Bool.and_eq_true, decide_eq_true_eq, beq_iff_eq]
  constructor
  · rintro ⟨_, h2⟩
    refine ⟨s.take (s.length - w.length), ?_⟩
    conv_lhs => rw [← List.take_append_drop (s.length - w.length) s, h2]
  · rintro ⟨t, rfl⟩
    simp

theorem TrimSuffix_append (t w : Str) : TrimSuffix (t ++ w) w = t := by
  have h : HasSuffix (t ++ w) w = true := (HasSuffix_iff _ _).mpr ⟨t, rfl⟩
  simp [TrimSuffix, h]

theorem TrimSuffix_cases (s w : Str) :
    (HasSuffix s w = false ∧ TrimSuffix s w = s) ∨ s = TrimSuffix s w ++ w := by
  cases h : HasSuffix s w with
  | false => left; simp [TrimSuffix, h]
  | true =>
    right
    obtain ⟨t, rfl⟩ := (HasSuffix_iff _ _).mp h
    rw [TrimSuffix_append]

theorem Index_space_split {s : Str} {i : Nat} (h : Index s [' '] = some i) :
    s.take i = s.takeWhile (· != ' ') ∧ s.drop (i + 1) = afterFirstSpace s := by
  unfold afterFirstSpace
  induction s generalizing i with
  | nil => simp [Index] at h
  | cons c t ih =>
    simp only [Index] at h
    by_cases hc : c = ' '
    · subst hc
      simp at h
      subst h
      simp
    · have hp : ¬ List.isPrefixOf [' '] (c :: t) = true := by
        simp [List.isPrefixOf, hc]
        exact fun h => hc h.symm
      simp only [hp, Bool.false_eq_true, ↓reduceIte] at h
      cases ht : Index t [' '] with
      | none => simp [ht] at h
      | some j =>
        simp [ht] at h
        subst h
        have := ih ht
        simp [hc, this.1, this.2]

/-! ## What the views return -/

theorem originView_colon {t : Str} {o : Origin} (h : originView (':' :: t) = .ok o) :
    o.Prefix = t.takeWhile (· != ' ') ∧ o.rest = afterFirstSpace t ∧
      t = o.Prefix ++ ' ' :: o.rest ∧ ' ' ∉ o.Prefix := by
  simp only [originView, ↓reduceIte] at h
  cases hidx : Index (':' :: t) [' '] with
  | none => simp [hidx] at h
  | some i =>
    have hsp := Index_space_split hidx
    have hnm := Index_one_not_mem_take hidx
    have hdec := Index_some hidx
    cases i with
    | zero => simp [Index] at hidx
    | succ k =>
      simp only [hidx, List.take_succ_cons, List.drop_succ_cons, List.drop_zero] at h
      simp only [List.take_succ_cons, List.drop_succ_cons, List.length_singleton,
        List.cons_append, List.cons.injEq, true_and] at hdec
      have h1 : t.take k = t.takeWhile (· != ' ') := by
        have := hsp.1
        simpa [List.takeWhile] using this
      have h2 : t.drop (k + 1) = afterFirstSpace t := by
        have := hsp.2
        simpa [afterFirstSpace, List.dropWhile] using this
      have h3 : ' ' ∉ t.take k := by
        intro hm
        exact hnm (by simp [hm])
      have hP : o.Prefix = t.take k ∧ o.rest = t.drop (k + 1) := by
        cases hn : Index (t.take k) ['!'] with
        | none =>
          simp only [hn] at h
          cases h
          exact ⟨rfl, rfl⟩
        | some n =>
          cases hu : Index (t.take k) ['@'] with
          | none =>
            simp only [hn, hu] at h
            cases h
            exact ⟨rfl, rfl⟩
          | some u =>
            simp only [hn, hu] at h
            split at h
            · cases h
              exact ⟨rfl, rfl⟩
            · cases h
      rw [hP.1, hP.2]
      refine ⟨h1, h2, ?_, h3⟩
      simpa using hdec

theorem originView_plain {s : Str} {o : Origin} (h : originView s = .ok o)
    (hs : s.head? ≠ some ':') : o = ⟨[], [], [], [], s⟩ := by
  cases s with
  | nil => simp [originView] at h
  | cons c t =>
    have hc : c ≠ ':' := by simpa using hs
    simp only [originView, hc, ↓reduceIte] at h
    split at h
    · cases h
    · cases h
      rfl

theorem originView_rest {line : Str} {o : Origin}
    (h : originView (TrimSuffix line crlf) = .ok o) : o.rest = remainder line := by
  unfold remainder
  cases hs : TrimSuffix line crlf with
  | nil => simp [hs, originView] at h
  | cons c t =>
    rw [hs] at h
    by_cases hc : c = ':'
    · subst hc
      exact (originView_colon h).2.1
    · have := originView_plain h (by simpa using hc)
      rw [this]
      split
      · rename_i heq
        simp only [List.cons.injEq] at heq
        exact absurd heq.1 hc
      · rfl

theorem originView_partial {s : Str} {o : Origin} (h : originView s = .ok o)
    (hno : ¬ ('!' ∈ o.Prefix ∧ '@' ∈ o.Prefix)) : o.Nick = [] ∧ o.Ident = [] ∧ o.Host = [] := by
  cases s with
  | nil => simp [originView] at h
  | cons c t =>
    simp only [originView] at h
    split at h
    · cases hidx : Index (c :: t) [' '] with
      | none => simp [hidx] at h
      | some i =>
        simp only [hidx] at h
        split at h
        · rename_i n u hn hu
          split at h
          · cases h
            exact absurd ⟨Index_one_mem hn, Index_one_mem hu⟩ hno
          · cases h
        · cases h
          exact ⟨rfl, rfl, rfl⟩
    · split at h
      · cases h
      · cases h
        exact ⟨rfl, rfl, rfl⟩

theorem commandView_Trail {r : Str} {c : Cmd} (h : commandView r = .ok c) :
    c.Trail = trailing r := by
  unfold commandView at h
  split at h
  · cases h
  · cases h; rfl
  · cases h; rfl

/-! ## A terminator left at the end of the stripped line -/

theorem Index_one_append {a : Char} {w : Str} (hw : a ∉ w) (s : Str) :
    Index (s ++ w) [a] = Index s [a] := by
  induction s with
  | nil =>
    have h1 : Index w [a] = none := by
      cases h : Index w [a] with
      | none => rfl
      | some i => exact absurd (Index_one_mem h) hw
    simpa [Index] using h1
  | cons c t ih =>
    rw [List.cons_append]
    simp only [Index]
    rw [ih]
    simp [List.isPrefixOf]

theorem Index_trailSep_append_crlf (r : Str) :
    Index (r ++ crlf) [' ', ':'] = Index r [' ', ':'] := by
  induction r with
  | nil => rfl
  | cons c t ih =>
    rw [List.cons_append]
    simp only [Index]
    rw [ih]
    cases t with
    | nil => simp [List.isPrefixOf, crlf]
    | cons d t' => simp [List.isPrefixOf]

theorem fieldsFrom_spaces (cur w : Str) (hw : ∀ c ∈ w, IsSpace c = true) :
    fieldsFrom cur w = if cur.isEmpty then [] else [cur.reverse] := by
  induction w generalizing cur with
  | nil => rfl
  | cons c w ih =>
    have hc : IsSpace c = true := hw c (by simp)
    have hw' : ∀ c ∈ w, IsSpace c = true := fun x hx => hw x (by simp [hx])
    simp only [fieldsFrom, hc, ↓reduceIte, ih [] hw']
    simp

theorem fieldsFrom_append_spaces (cur s w : Str) (hw : ∀ c ∈ w, IsSpace c = true) :
    fieldsFrom cur (s ++ w) = fieldsFrom cur s := by
  induction s generalizing cur with
  | nil => simpa [fieldsFrom] using fieldsFrom_spaces cur w hw
  | cons c t ih =>
    rw [List.cons_append]
    simp only [fieldsFrom]
    rw [ih, ih]

theorem Fields_append_crlf (r : Str) : Fields (r ++ crlf) = Fields r :=
  fieldsFrom_append_spaces [] r crlf (by decide)

theorem cmdSegment_append_crlf (r : Str) :
    Fields (cmdSegment (r ++ crlf)) = Fields (cmdSegment r) := by
  unfold cmdSegment
  rw [Index_trailSep_append_crlf]
  cases hidx : Index r [' ', ':'] with
  | none => exact Fields_append_crlf r
  | some m =>
    have hb := Index_bound hidx (by simp)
    simp only [List.length_cons, List.length_singleton, List.length_nil] at hb
    simp only
    rw [List.take_append_of_le_length (by omega)]

theorem trailing_append_crlf (r : Str) :
    trailing (r ++ crlf) = (trailing r).map (· ++ crlf) := by
  unfold trailing
  rw [Index_trailSep_append_crlf]
  cases hidx : Index r [' ', ':'] with
  | none => rfl
  | some m =>
    have hb := Index_bound hidx (by simp)
    simp only [List.length_cons, List.length_singleton, List.length_nil] at hb
    simp only [Option.map_some']
    rw [List.drop_append_of_le_length (by omega)]

theorem commandView_append_crlf (r : Str) :
    commandView (r ++ crlf) =
      (commandView r).map fun c => { c with Trail := c.Trail.map (· ++ crlf) } := by
  unfold commandView
  rw [cmdSegment_append_crlf, trailing_append_crlf]
  rcases Fields (cmdSegment r) with _ | ⟨c, _ | ⟨p, ps⟩⟩ <;> rfl

theorem originView_append_crlf (s : Str) (hs : s ≠ []) :
    originView (s ++ crlf) =
      (originView s).map fun o => { o with rest := o.rest ++ crlf } := by
  cases s with
  | nil => exact absurd rfl hs
  | cons c t =>
    simp only [originView, List.cons_append]
    rw [← List.cons_append, Index_one_append (by decide : ' ' ∉ crlf)]
    by_cases hc : c = ':'
    · simp only [hc, ↓reduceIte]
      cases hidx : Index (':' :: t) [' '] with
      | none => rfl
      | some i =>
        have hb := Index_bound hidx (by simp)
        simp only [List.length_singleton] at hb
        simp only
        rw [List.take_append_of_le_length (by omega), List.drop_append_of_le_length (by omega)]
        generalize List.drop 1 (List.take i (':' :: t)) = p
        cases Index p ['!'] with
        | none => rfl
        | some n =>
          cases Index p ['@'] with
          | none => rfl
          | some u =>
            simp only
            split <;> rfl
    · simp only [hc, ↓reduceIte]
      split <;> rfl

theorem originView_rest_suffix {s : Str} {o : Origin} (h : originView s = .ok o) :
    o.rest <:+ s := by
  cases s with
  | nil => simp [originView] at h
  | cons c t =>
    by_cases hc : c = ':'
    · subst hc
      have h3 := (originView_colon h).2.2.1
      exact ⟨':' :: (o.Prefix ++ [' ']), by rw [h3]; simp⟩
    · rw [originView_plain h (by simpa using hc)]

theorem trailing_suffix {r t : Str} (h : trailing r = some t) : t <:+ r := by
  unfold trailing at h
  cases hidx : Index r [' ', ':'] with
  | none => simp [hidx] at h
  | some m =>
    simp only [hidx, Option.some.injEq] at h
    subst h
    exact List.drop_suffix _ _

theorem HasSuffix_false_of_suffix {s t w : Str} (hs : HasSuffix s w = false) (ht : t <:+ s) :
    HasSuffix t w = false := by
  cases h : HasSuffix t w with
  | false => rfl
  | true =>
    obtain ⟨t', rfl⟩ := (HasSuffix_iff _ _).mp h
    obtain ⟨a, rfl⟩ := ht
    have : HasSuffix (a ++ (t' ++ w)) w = true :=
      (HasSuffix_iff _ _).mpr ⟨a ++ t', by simp⟩
    rw [this] at hs
    cases hs

theorem originView_nonempty {s : Str} {o : Origin} (h : originView s = .ok o) : s ≠ [] := by
  rintro rfl
  simp [originView] at h

theorem parseCommand_beforeCommand (now : Nat) (s : Str) (o : Origin) (c : Cmd)
    (hc : commandView o.rest = .ok c) :
    parseCommand (beforeCommand (assemble now s o c)) o.rest = .ok (assemble now s o c) := by
  rw [parseCommand_eq, hc]
  rfl

theorem TrimSuffix_split (line : Str) :
    ∃ w, line = TrimSuffix line crlf ++ w ∧
      ∀ r, r <:+ TrimSuffix line crlf → TrimSuffix (r ++ w) crlf = r := by
  rcases TrimSuffix_cases line crlf with ⟨hno, hX⟩ | hX
  · refine ⟨[], by simp [hX], fun r hr => ?_⟩
    rw [hX] at hr
    have := HasSuffix_false_of_suffix hno hr
    simp [TrimSuffix, this]
  · exact ⟨crlf, hX, fun r _ => TrimSuffix_append r crlf⟩

/-! ## The tokens of `strings.Fields` -/

theorem fieldsFrom_token (cur s : Str) (hcur : ∀ c ∈ cur, IsSpace c = false) :
    ∀ t ∈ fieldsFrom cur s, t ≠ [] ∧ ∀ c ∈ t, IsSpace c = false := by
  induction s generalizing cur with
  | nil =>
    intro t ht
    simp only [fieldsFrom] at ht
    split at ht
    · simp at ht
    · rename_i hne
      simp only [List.mem_singleton] at ht
      subst ht
      refine ⟨by simpa using hne, fun c hc => hcur c (by simpa using hc)⟩
  | cons a s ih =>
    intro t ht
    simp only [fieldsFrom] at ht
    by_cases ha : IsSpace a = true
    · simp only [ha, ↓reduceIte] at ht
      split at ht
      · exact ih [] (by simp) t ht
      · rename_i hne
        rcases List.mem_cons.mp ht with h1 | h1
        · subst h1
          refine ⟨by simpa using hne, fun c hc => hcur c (by simpa using hc)⟩
        · exact ih [] (by simp) t h1
    · simp only [ha, Bool.false_eq_true, ↓reduceIte] at ht
      refine ih (a :: cur) (fun c hc => ?_) t ht
      rcases List.mem_cons.mp hc with h1 | h1
      · subst h1
        simpa using ha
      · exact hcur c h1

theorem Fields_token (s : Str) :
    ∀ t ∈ Fields s, t ≠ [] ∧ ∀ c ∈ t, IsSpace c = false :=
  fieldsFrom_token [] s (by simp)

theorem fieldsFrom_eq_nil {cur s : Str} (h : fieldsFrom cur s = []) :
    cur = [] ∧ ∀ c ∈ s, IsSpace c = true := by
  induction s generalizing cur with
  | nil =>
    simp only [fieldsFrom] at h
    split at h
    · rename_i he
      exact ⟨by simpa using he, by simp⟩
    · simp at h
  | cons a s ih =>
    simp only [fieldsFrom] at h
    by_cases ha : IsSpace a = true
    · simp only [ha, ↓reduceIte] at h
      split at h
      · rename_i he
        refine ⟨by simpa using he, fun c hc => ?_⟩
        rcases List.mem_cons.mp hc with h1 | h1
        · subst h1; exact ha
        · exact (ih h).2 c h1
      · simp at h
    · simp only [ha, Bool.false_eq_true, ↓reduceIte] at h
      exact absurd (ih h).1 (by simp)

theorem Fields_eq_nil_iff (s : Str) : Fields s = [] ↔ ∀ c ∈ s, IsSpace c = true := by
  constructor
  · intro h
    exact (fieldsFrom_eq_nil h).2
  · intro h
    simpa using fieldsFrom_spaces [] s h

theorem fieldsFrom_append_space (cur a b : Str) (sp : Char) (hsp : IsSpace sp = true) :
    fieldsFrom cur (a ++ sp :: b) = fieldsFrom cur a ++ Fields b := by
  induction a generalizing cur with
  | nil =>
    simp only [List.nil_append, fieldsFrom, hsp, ↓reduceIte, Fields]
    split <;> simp
  | cons c t ih =>
    rw [List.cons_append]
    simp only [fieldsFrom]
    rw [ih, ih]
    split
    · split <;> simp
    · rfl

theorem Fields_append_space (a b : Str) (sp : Char) (hsp : IsSpace sp = true) :
    Fields (a ++ sp :: b) = Fields a ++ Fields b :=
  fieldsFrom_append_space [] a b sp hsp

theorem fieldsFrom_cons {cur s tok : Str} {ts : List Str}
    (h : fieldsFrom cur s = tok :: ts) :
    ∃ sp w rest, s = sp ++ w ++ rest ∧ (∀ c ∈ sp, IsSpace c = true) ∧ (cur ≠ [] → sp = []) ∧
      tok = cur.reverse ++ w ∧ (∀ c, rest.head? = some c → IsSpace c = true) ∧
      Fields rest = ts := by
  induction s generalizing cur with
  | nil =>
    simp only [fieldsFrom] at h
    split at h
    · simp at h
    · simp only [List.cons.injEq] at h
      exact ⟨[], [], [], rfl, by simp, fun _ => rfl, by simp [h.1], by simp, by
        rw [← h.2]; rfl⟩
  | cons a s ih =>
    simp only [fieldsFrom] at h
    by_cases ha : IsSpace a = true
    · simp only [ha, ↓reduceIte] at h
      split at h
      · rename_i he
        have hcur : cur = [] := by simpa using he
        obtain ⟨sp, w, rest, h1, h2, _, h4, h5, h6⟩ := ih h
        refine ⟨a :: sp, w, rest, by simp [h1], ?_, fun hne => absurd hcur hne, ?_, h5, h6⟩
        · intro c hc
          rcases List.mem_cons.mp hc with hc | hc
          · subst hc; exact ha
          · exact h2 c hc
        · simpa [hcur] using h4
      · simp only [List.cons.injEq] at h
        refine ⟨[], [], a :: s, rfl, by simp, fun _ => rfl, by simp [h.1], ?_, ?_⟩
        · intro c hc
          simp only [List.head?_cons, Option.some.injEq] at hc
          subst hc; exact ha
        · rw [← h.2]
          simp [Fields, fieldsFrom, ha]
    · simp only [ha, Bool.false_eq_true, ↓reduceIte] at h
      obtain ⟨sp, w, rest, h1, _, h3, h4, h5, h6⟩ := ih h
      have hsp : sp = [] := h3 (by simp)
      subst hsp
      refine ⟨[], a :: w, rest, by simp [h1], by simp, fun _ => rfl, ?_, h5, h6⟩
      simpa using h4

theorem Fields_cons {s tok : Str} {ts : List Str} (h : Fields s = tok :: ts) :
    ∃ sp rest, s = sp ++ tok ++ rest ∧ (∀ c ∈ sp, IsSpace c = true) ∧
      (∀ c, rest.head? = some c → IsSpace c = true) ∧ Fields rest = ts := by
  obtain ⟨sp, w, rest, h1, h2, _, h4, h5, h6⟩ := fieldsFrom_cons h
  simp only [List.reverse_nil, List.nil_append] at h4
  subst h4
  exact ⟨sp, rest, h1, h2, h5, h6⟩

/-! ## The command, the parameters and the segment they come from -/

theorem commandView_ok {r : Str} {c : Cmd} (h : commandView r = .ok c) :
    ∃ tok ts, Fields (cmdSegment r) = tok :: ts ∧ c.Command = tok ∧
      c.Params = (if ts = [] then [tok] else ts) ∧ c.Trail = trailing r := by
  unfold commandView at h
  split at h
  · cases h
  · rename_i tok hf
    cases h
    exact ⟨tok, [], hf, rfl, rfl, rfl⟩
  · rename_i tok p ps hf
    cases h
    exact ⟨tok, p :: ps, hf, rfl, by simp, rfl⟩

theorem commandView_error {r : Str} {e : Failure} :
    commandView r = .error e ↔ e = .panic ∧ Fields (cmdSegment r) = [] := by
  unfold commandView
  split
  · rename_i hf
    constructor
    · intro h; cases h; exact ⟨rfl, hf⟩
    · rintro ⟨rfl, _⟩; rfl
  · rename_i hf
    simp [hf]
  · rename_i hf
    simp [hf]

theorem Index_not_infix_take {s sep : Str} {i : Nat} (h : Index s sep = some i)
    (hsep : sep ≠ []) : ¬ sep <:+: s.take i := by
  rintro ⟨a, b, hab⟩
  have hb := Index_bound h hsep
  have hs : s = a ++ sep ++ (b ++ s.drop i) := by
    conv_lhs => rw [← List.take_append_drop i s, ← hab]
    simp
  have h1 := Index_some_first h a _ hs
  have h2 := congrArg List.length hab
  have h3 : 0 < sep.length := List.length_pos.mpr hsep
  simp only [List.length_append, List.length_take] at h2
  omega

theorem cmdSegment_split (r : Str) :
    ¬ trailSep <:+: cmdSegment r ∧
    ((¬ trailSep <:+: r ∧ cmdSegment r = r ∧ trailing r = none) ∨
      ∃ t, trailing r = some t ∧ r = cmdSegment r ++ trailSep ++ t) := by
  unfold cmdSegment trailing
  cases hidx : Index r [' ', ':'] with
  | none =>
    exact ⟨Index_none hidx, Or.inl ⟨Index_none hidx, rfl, rfl⟩⟩
  | some i =>
    refine ⟨Index_not_infix_take hidx (by simp [trailSep]), Or.inr ⟨_, rfl, ?_⟩⟩
    have := Index_some hidx
    simpa [trailSep] using this

theorem Fields_remainder_head (r : Str) (tok : Str) (ts : List Str)
    (h : Fields (cmdSegment r) = tok :: ts) :
    (Fields r).head? = some tok ∧
    ∃ sp rest, r = sp ++ tok ++ rest ∧ (∀ c ∈ sp, IsSpace c = true) ∧
      (∀ c, rest.head? = some c → IsSpace c = true) := by
  obtain ⟨sp, rest, h1, h2, h3, _⟩ := Fields_cons h
  rcases (cmdSegment_split r).2 with ⟨_, hseg, _⟩ | ⟨t, _, hr⟩
  · rw [hseg] at h h1
    exact ⟨by rw [h]; rfl, sp, rest, h1, h2, h3⟩
  · constructor
    · rw [hr]
      have : cmdSegment r ++ trailSep ++ t = cmdSegment r ++ ' ' :: (':' :: t) := by
        simp [trailSep]
      rw [this, Fields_append_space _ _ ' ' (by decide), h]
      rfl
    · refine ⟨sp, rest ++ trailSep ++ t, ?_, h2, ?_⟩
      · conv_lhs => rw [hr, h1]
        simp
      · intro c hc
        cases rest with
        | nil =>
          simp only [trailSep, List.nil_append, List.cons_append, List.head?_cons,
            Option.some.injEq] at hc
          subst hc
          decide
        | cons d rest' =>
          simp only [List.cons_append, List.head?_cons, Option.some.injEq] at hc
          subst hc
          exact h3 d rfl

/-! ## Text appended to a line -/

theorem Index_one_append_some {a : Char} {s : Str} {i : Nat} (h : Index s [a] = some i)
    (w : Str) : Index (s ++ w) [a] = some i := by
  induction s generalizing i with
  | nil => simp [Index] at h
  | cons c t ih =>
    rw [List.cons_append]
    simp only [Index] at h ⊢
    by_cases hc : a = c
    · subst hc
      simpa [List.isPrefixOf] using h
    · have hp : ∀ l, ¬ List.isPrefixOf [a] (c :: l) = true := by
        intro l
        simp [List.isPrefixOf, hc]
      simp only [hp, Bool.false_eq_true, ↓reduceIte] at h ⊢
      cases ht : Index t [a] with
      | none => simp [ht] at h
      | some j =>
        rw [ih ht]
        simpa [ht] using h

theorem originView_append {s : Str} {o : Origin} (h : originView s = .ok o) (w : Str) :
    originView (s ++ w) = .ok { o with rest := o.rest ++ w } := by
  cases s with
  | nil => simp [originView] at h
  | cons c t =>
    rw [List.cons_append]
    simp only [originView] at h ⊢
    by_cases hc : c = ':'
    · simp only [hc, ↓reduceIte] at h ⊢
      cases hidx : Index (':' :: t) [' '] with
      | none => simp [hidx] at h
      | some i =>
        have hb := Index_bound hidx (by simp)
        simp only [List.length_singleton] at hb
        have hidx' := Index_one_append_some hidx w
        rw [List.cons_append] at hidx'
        simp only [hidx, hidx'] at h ⊢
        rw [← List.cons_append, List.take_append_of_le_length (by omega),
          List.drop_append_of_le_length (by omega)]
        generalize List.drop 1 (List.take i (':' :: t)) = p at h ⊢
        cases hn : Index p ['!'] with
        | none =>
          simp only [hn] at h ⊢
          cases h
          rfl
        | some n =>
          cases hu : Index p ['@'] with
          | none =>
            simp only [hn, hu] at h ⊢
            cases h
            rfl
          | some u =>
            simp only [hn, hu] at h ⊢
            split at h
            · rename_i hnu
              cases h
              simp [hnu]
            · cases h
    · simp only [hc, ↓reduceIte] at h ⊢
      split at h
      · cases h
      · rename_i hc2
        cases h
        simp [hc2]

theorem Index_trailSep_append_self {r : Str} (h : Index r [' ', ':'] = none) (post : Str) :
    Index (r ++ [' ', ':'] ++ post) [' ', ':'] = some r.length := by
  induction r with
  | nil => simp [Index, List.isPrefixOf]
  | cons c t ih =>
    simp only [Index] at h
    split at h
    · simp at h
    · rename_i hp
      have ht : Index t [' ', ':'] = none := by
        cases ht : Index t [' ', ':'] with
        | none => rfl
        | some j => simp [ht] at h
      have hp' : ¬ List.isPrefixOf [' ', ':'] (c :: (t ++ [' ', ':'] ++ post)) = true := by
        cases t with
        | nil => simp [List.isPrefixOf]
        | cons d t' => simpa [List.isPrefixOf] using hp
      rw [List.append_assoc, List.cons_append, ← List.append_assoc]
      simp only [Index, hp', Bool.false_eq_true, ↓reduceIte, ih ht]
      rfl

theorem HasSuffix_trailSep_crlf (s : Str) : HasSuffix (s ++ trailSep) crlf = false := by
  cases h : HasSuffix (s ++ trailSep) crlf with
  | false => rfl
  | true =>
    obtain ⟨t, ht⟩ := (HasSuffix_iff _ _).mp h
    have h1 : (s ++ [' ']) ++ [':'] = (t ++ ['\r']) ++ ['\n'] := by
      simpa [trailSep, crlf] using ht
    have h2 := (List.append_inj' h1 rfl).2
    simp at h2

theorem commandView_append_trailSep {r u : Str} (hr : ¬ trailSep <:+: r)
    (hu : u = [] ∨ u = crlf) :
    commandView (r ++ (u ++ trailSep)) =
      (commandView r).map fun c => { c with Trail := some [] } := by
  have hr0 : Index r [' ', ':'] = none := by
    cases hidx : Index r [' ', ':'] with
    | none => rfl
    | some i => exact absurd ⟨_, _, (Index_some hidx).symm⟩ hr
  have hru : Index (r ++ u) [' ', ':'] = none ∧ Fields (r ++ u) = Fields r := by
    rcases hu with rfl | rfl
    · simpa using hr0
    · exact ⟨by rw [Index_trailSep_append_crlf]; exact hr0, Fields_append_crlf r⟩
  have hidx := Index_trailSep_append_self hru.1 []
  have hseg : cmdSegment (r ++ (u ++ trailSep)) = r ++ u := by
    unfold cmdSegment
    have : r ++ (u ++ trailSep) = r ++ u ++ [' ', ':'] ++ [] := by simp [trailSep]
    rw [this, hidx, List.append_assoc (r ++ u)]
    exact List.take_left _ _
  have htr : trailing (r ++ (u ++ trailSep)) = some [] := by
    unfold trailing
    have : r ++ (u ++ trailSep) = r ++ u ++ [' ', ':'] ++ [] := by simp [trailSep]
    rw [this, hidx]
    simp
    omega
  have hseg0 : cmdSegment r = r := by
    unfold cmdSegment
    rw [hr0]
  unfold commandView
  rw [hseg, htr, hseg0, hru.2]
  rcases Fields r with _ | ⟨c, _ | ⟨p, ps⟩⟩ <;> rfl

/-! ## The first character of the stripped line -/

theorem TrimSuffix_head {a : Char} {t : Str} (ha : a ≠ '\r') :
    ∃ t', TrimSuffix (a :: t) crlf = a :: t' ∧ (a :: t') <+: (a :: t) := by
  rcases TrimSuffix_cases (a :: t) crlf with ⟨_, hX⟩ | hX
  · exact ⟨t, hX, List.prefix_refl _⟩
  · cases hs : TrimSuffix (a :: t) crlf with
    | nil =>
      rw [hs] at hX
      simp only [List.nil_append, crlf, List.cons.injEq] at hX
      exact absurd hX.1 ha
    | cons b t' =>
      rw [hs] at hX
      simp only [List.cons_append, List.cons.injEq] at hX
      obtain ⟨hab, ht⟩ := hX
      subst hab
      exact ⟨t', rfl, ⟨crlf, by simp [ht]⟩⟩

theorem Index_one_eq_none {s : Str} {a : Char} (h : a ∉ s) : Index s [a] = none := by
  cases hidx : Index s [a] with
  | none => rfl
  | some i => exact absurd (Index_one_mem hidx) h

theorem ParseMessage_clock (now now' : Nat) (line : Str) :
    ParseMessage now line = (ParseMessage now' line).map fun m => { m with SentAt := now } := by
  rw [ParseMessage_eq, ParseMessage_eq]
  cases originView (TrimSuffix line crlf) with
  | error e => rfl
  | ok o =>
    simp only
    cases commandView o.rest with
    | error e => rfl
    | ok c => rfl

/-! ## The parts of the prefix -/

theorem Index_one_getElem? {s : Str} {a : Char} {i : Nat} (h : Index s [a] = some i) :
    s[i]? = some a := by
  induction s generalizing i with
  | nil => simp [Index] at h
  | cons c t ih =>
    simp only [Index] at h
    by_cases hc : a = c
    · subst hc
      simp [List.isPrefixOf] at h
      subst h
      simp
    · have hp : ¬ List.isPrefixOf [a] (c :: t) = true := by simp [List.isPrefixOf, hc]
      simp only [hp, Bool.false_eq_true, ↓reduceIte] at h
      cases ht : Index t [a] with
      | none => simp [ht] at h
      | some j =>
        simp [ht] at h
        subst h
        simpa using ih ht

theorem Index_one_take {s : Str} {a : Char} {i : Nat} (h : Index s [a] = some i) :
    s.take i = s.takeWhile (· != a) := by
  induction s generalizing i with
  | nil => simp [Index] at h
  | cons c t ih =>
    simp only [Index] at h
    by_cases hc : a = c
    · subst hc
      simp [List.isPrefixOf] at h
      subst h
      simp
    · have hp : ¬ List.isPrefixOf [a] (c :: t) = true := by simp [List.isPrefixOf, hc]
      simp only [hp, Bool.false_eq_true, ↓reduceIte] at h
      cases ht : Index t [a] with
      | none => simp [ht] at h
      | some j =>
        simp [ht] at h
        subst h
        have hca : c ≠ a := fun h => hc h.symm
        simp [hca, ih ht]

theorem take_split {l : Str} {n u : Nat} {x : Char} (hx : l[n]? = some x) (hnu : n < u) :
    l.take u = l.take n ++ x :: (l.take u).drop (n + 1) := by
  induction l generalizing n u with
  | nil => simp at hx
  | cons c t ih =>
    cases u with
    | zero => omega
    | succ u' =>
      cases n with
      | zero =>
        simp only [List.getElem?_cons_zero, Option.some.injEq] at hx
        subst hx
        simp
      | succ n' =>
        simp only [List.getElem?_cons_succ] at hx
        have := ih hx (by omega : n' < u')
        simp only [List.take_succ_cons, List.drop_succ_cons, List.cons_append, List.cons.injEq,
          true_and]
        exact this

theorem originView_both {s : Str} {o : Origin} (h : originView s = .ok o)
    (hb : '!' ∈ o.Prefix) (ha : '@' ∈ o.Prefix) :
    ∃ n u, Index o.Prefix ['!'] = some n ∧ Index o.Prefix ['@'] = some u ∧ n + 1 ≤ u ∧
      o.Nick = o.Prefix.take n ∧ o.Ident = (o.Prefix.take u).drop (n + 1) ∧
      o.Host = o.Prefix.drop (u + 1) := by
  cases s with
  | nil => simp [originView] at h
  | cons c t =>
    simp only [originView] at h
    split at h
    · cases hidx : Index (c :: t) [' '] with
      | none => simp [hidx] at h
      | some i =>
        simp only [hidx] at h
        split at h
        · rename_i n u hn hu
          split at h
          · rename_i hnu
            cases h
            exact ⟨n, u, hn, hu, hnu, rfl, rfl, rfl⟩
          · cases h
        · rename_i hnone
          cases h
          simp only at hb ha hnone
          cases hn : Index (List.drop 1 (List.take i (c :: t))) ['!'] with
          | none => exact absurd hb (Index_one_none hn)
          | some n =>
            cases hu : Index (List.drop 1 (List.take i (c :: t))) ['@'] with
            | none => exact absurd ha (Index_one_none hu)
            | some u => exact absurd hu (hnone n u hn)
    · split at h
      · cases h
      · cases h
        simp at hb

theorem Index_order_parts {p : Str} {n u : Nat} (hn : Index p ['!'] = some n)
    (hu : Index p ['@'] = some u) (hnu : n + 1 ≤ u) :
    '!' ∉ p.take n ∧ '@' ∉ p.take n ∧ '@' ∉ (p.take u).drop (n + 1) ∧
      p.take n ++ '!' :: ((p.take u).drop (n + 1) ++ '@' :: p.drop (u + 1)) = p := by
  have h1 := Index_one_not_mem_take hn
  have h2 := Index_one_not_mem_take hu
  have h3 := take_split (Index_one_getElem? hn) (by omega : n < u)
  have h4 := Index_some hu
  refine ⟨h1, fun hm => h2 ?_, fun hm => h2 (List.mem_of_mem_drop hm), ?_⟩
  · rw [h3]
    exact List.mem_append_left _ hm
  · conv_rhs => rw [h4, h3]
    simp

/-! ## When the prefix block fails -/

theorem originOf_eq {t : Str} {i : Nat} (hidx : Index (':' :: t) [' '] = some i) :
    List.drop 1 (List.take i (':' :: t)) = originOf (':' :: t) := by
  rw [Index_one_take hidx]
  simp [originOf]

theorem originView_error_iff (s : Str) :
    originView s = .error .CannotParseMessageError ↔
      s.head? = some ' ' ∨ (s.head? = some ':' ∧ ' ' ∉ s) := by
  cases s with
  | nil => simp [originView]
  | cons c t =>
    simp only [originView, List.head?_cons, Option.some.injEq]
    by_cases hc : c = ':'
    · subst hc
      simp only [↓reduceIte, true_and]
      cases hidx : Index (':' :: t) [' '] with
      | none =>
        simp only [true_iff]
        exact Or.inr (Index_one_none hidx)
      | some i =>
        have hmem := Index_one_mem hidx
        simp only
        constructor
        · intro h
          exfalso
          split at h
          · split at h <;> cases h
          · cases h
        · rintro (h | h)
          · exact absurd h (by decide)
          · exact absurd hmem h
    · simp only [hc, ↓reduceIte, false_and, or_false]
      by_cases hc2 : c = ' '
      · simp [hc2]
      · simp [hc2]

theorem originView_panic_iff (s : Str) :
    originView s = .error .panic ↔ s = [] ∨ reversedOrigin s := by
  cases s with
  | nil => simp [originView]
  | cons c t =>
    simp only [reversedOrigin, List.head?_cons, Option.some.injEq, false_or]
    by_cases hc : c = ':'
    · subst hc
      simp only [originView, ↓reduceIte, true_and]
      cases hidx : Index (':' :: t) [' '] with
      | none =>
        have := Index_one_none hidx
        simp [this]
      | some i =>
        have hmem := Index_one_mem hidx
        simp only [originOf_eq hidx, hmem, true_and]
        generalize originOf (':' :: t) = p
        cases hn : Index p ['!'] with
        | none =>
          have := Index_one_none hn
          simp [this]
        | some n =>
          cases hu : Index p ['@'] with
          | none =>
            have := Index_one_none hu
            simp [this]
          | some u =>
            have hb := Index_one_mem hn
            have ha := Index_one_mem hu
            have hnot := Index_one_not_mem_take hn
            simp only [hb, ha, true_and, ← Index_one_take hu]
            by_cases hnu : n + 1 ≤ u
            · simp only [hnu, ↓reduceIte, false_iff, not_not]
              rw [take_split (Index_one_getElem? hn) (by omega : n < u)]
              simp
            · simp only [hnu, ↓reduceIte, true_iff]
              right
              intro hm
              apply hnot
              have : List.take u p = List.take u (List.take n p) := by
                rw [List.take_take, Nat.min_eq_left (by omega)]
              rw [this] at hm
              exact List.mem_of_mem_take hm
    · have : originView (c :: t) ≠ .error .panic := by
        simp only [originView, hc, ↓reduceIte]
        split <;> simp
      simp [this, hc]

theorem originView_ok_iff (s : Str) :
    (∃ o, originView s = .ok o) ↔
      s ≠ [] ∧ s.head? ≠ some ' ' ∧ ¬ reversedOrigin s ∧ (s.head? = some ':' → ' ' ∈ s) := by
  have he := originView_error_iff s
  have hp := originView_panic_iff s
  cases hov : originView s with
  | ok o =>
    rw [hov] at he hp
    simp only [reduceCtorEq, false_iff, not_or, not_and, not_not] at he hp
    simp only [Except.ok.injEq, exists_eq', true_iff]
    exact ⟨hp.1, he.1, hp.2, he.2⟩
  | error e =>
    rw [hov] at he hp
    simp only [reduceCtorEq, exists_false, false_iff, not_and]
    intro h1 h2 h3 h4
    cases e with
    | CannotParseMessageError =>
      rcases he.mp rfl with h | ⟨h, h'⟩
      · exact h2 h
      · exact h' (h4 h)
    | panic =>
      rcases hp.mp rfl with h | h
      · exact h1 h
      · exact h3 h

/-! ## The claims -/

/-- C1: the line `":nick@host!user PING"` is non-empty, does not start with a space
and, starting with `':'`, contains a space; yet `ParseMessage` returns no message
on it: the slice `msg.Prefix[nickIndex+1 : userIndex]` of line 61 is out of
range, because the first `'@'` stands before the first `'!'`. -/
theorem ParseMessage_panics_on_accepted_line (now : Nat) :
    ":nick@host!user PING".toList ≠ [] ∧
    ":nick@host!user PING".toList.head? ≠ some ' ' ∧
    (":nick@host!user PING".toList.head? = some ':' → ' ' ∈ ":nick@host!user PING".toList) ∧
    ParseMessage now ":nick@host!user PING".toList = .error .panic := by
  refine ⟨by decide, by decide, fun _ => by decide, rfl⟩

/-- C2: on `"PING :12345"`, a command without middle parameters, `ParseMessage`
returns `Command = "PING"` and leaves the command in the parameter list:
`Params = ["PING"]`, not the empty list (the guard of line 77 skips the removal
when there is a single token). -/
theorem ParseMessage_PING_keeps_command_in_Params (now : Nat) :
    ParseMessage now "PING :12345".toList =
      .ok { Prefix := [], Nick := [], Ident := [], Host := [],
            Command := "PING".toList, Trail := "12345".toList,
            Params := ["PING".toList], SentAt := now,
            RawMsg := "PING :12345".toList, IsParsed := true } := by
  rfl

/-- C3: the line `":a@b!c CMD x"` has the form `':' + origin + ' ' + rest` with an
origin `"a@b!c"` that has no space and holds both `'!'` and `'@'`, and a rest
`"CMD x"` with a command token; `ParseMessage` does not succeed on it, it panics
(slice bounds out of range at line 61). -/
theorem ParseMessage_panics_when_at_precedes_bang (now : Nat) :
    ":a@b!c CMD x".toList = ':' :: ("a@b!c".toList ++ ' ' :: "CMD x".toList) ∧
    ' ' ∉ "a@b!c".toList ∧ '!' ∈ "a@b!c".toList ∧ '@' ∈ "a@b!c".toList ∧
    Fields (cmdSegment "CMD x".toList) = ["CMD".toList, "x".toList] ∧
    ParseMessage now ":a@b!c CMD x".toList = .error .panic := by
  refine ⟨rfl, by decide, by decide, by decide, rfl, rfl⟩

/-- C4: on a line that `ParseMessage` decodes, when the prefix-stripped remainder
contains `" :"`, `Trail` is the text after the first occurrence of `" :"` in it
(the remainder is `pre ++ " :" ++ Trail`, and no occurrence of `" :"` starts
before the end of `pre`); otherwise `Trail` is empty. -/
theorem ParseMessage_Trail (now : Nat) (line : Str) (m : Message)
    (h : ParseMessage now line = .ok m) :
    (trailSep <:+: remainder line →
      ∃ pre, remainder line = pre ++ trailSep ++ m.Trail ∧
        ∀ pre' post', remainder line = pre' ++ trailSep ++ post' → pre.length ≤ pre'.length) ∧
    (¬ trailSep <:+: remainder line → m.Trail = []) := by
  obtain ⟨o, c, ho, hc, rfl⟩ := (ParseMessage_ok_iff now line m).mp h
  have hr := originView_rest ho
  have ht := commandView_Trail hc
  rw [hr] at ht
  simp only [assemble, ht, trailing]
  cases hidx : Index (remainder line) [' ', ':'] with
  | none =>
    refine ⟨fun hin => absurd hin (Index_none hidx), fun _ => rfl⟩
  | some i =>
    have hdec := Index_some hidx
    have hb := Index_bound hidx (by simp)
    simp only [List.length_cons, List.length_singleton, List.length_nil] at hb hdec
    constructor
    · intro _
      refine ⟨(remainder line).take i, ?_, ?_⟩
      · simpa [trailSep] using hdec
      · intro pre' post' hpp
        have := Index_some_first hidx pre' post' hpp
        simp only [List.length_take]
        omega
    · intro hn
      exact absurd ⟨(remainder line).take i, (remainder line).drop (i + 2), hdec.symm⟩ hn

/-- C4, at the line of the specification: `"COMMAND arg1 arg2 :trailing text here"`
decodes to `Command = "COMMAND"`, `Params = ["arg1", "arg2"]` and
`Trail = "trailing text here"`. -/
theorem ParseMessage_Trail_witness :
    ParseMessage 0 "COMMAND arg1 arg2 :trailing text here".toList =
      .ok { Prefix := [], Nick := [], Ident := [], Host := [],
            Command := "COMMAND".toList, Trail := "trailing text here".toList,
            Params := ["arg1".toList, "arg2".toList], SentAt := 0,
            RawMsg := "COMMAND arg1 arg2 :trailing text here".toList, IsParsed := true } ∧
    ((trailSep <:+: remainder "COMMAND arg1 arg2 :trailing text here".toList →
      ∃ pre, remainder "COMMAND arg1 arg2 :trailing text here".toList
          = pre ++ trailSep ++ "trailing text here".toList ∧
        ∀ pre' post', remainder "COMMAND arg1 arg2 :trailing text here".toList
          = pre' ++ trailSep ++ post' → pre.length ≤ pre'.length) ∧
    (¬ trailSep <:+: remainder "COMMAND arg1 arg2 :trailing text here".toList →
      "trailing text here".toList = [])) :=
  ⟨rfl, ParseMessage_Trail 0 "COMMAND arg1 arg2 :trailing text here".toList _ rfl⟩

/-- C5: on the empty string `ParseMessage` does not return
`CannotParseMessageError`: the index `rawMsg[0]` of line 50 is out of range and
the call panics. -/
theorem ParseMessage_empty_panics (now : Nat) :
    ParseMessage now [] = .error .panic ∧
    ParseMessage now [] ≠ .error .CannotParseMessageError := by
  refine ⟨rfl, fun h => ?_⟩
  have h' : (Except.error Failure.panic : Except Failure Message) =
      .error .CannotParseMessageError := h
  cases h'

/-- C6: on `":srv "` and on `":srv  :hello"`, lines that pass the prefix checks and
whose command+middle segment has no token, `ParseMessage` does not return
`CannotParseMessageError`: the index `msg.Params[0]` of line 76 is out of range
and the call panics. -/
theorem ParseMessage_no_token_panics (now : Nat) :
    Fields (cmdSegment (remainder ":srv ".toList)) = [] ∧
    ParseMessage now ":srv ".toList = .error .panic ∧
    Fields (cmdSegment (remainder ":srv  :hello".toList)) = [] ∧
    ParseMessage now ":srv  :hello".toList = .error .panic := by
  refine ⟨rfl, rfl, rfl, rfl⟩

/-- C7, as the claim states it, fails on `"PING :x\r\n\r\n"`: the message has
`Trail = "x\r\n"` and `RawMsg = "PING :x\r\n"`, and decoding `RawMsg` again gives
`Trail = "x"`. -/
theorem ParseMessage_RawMsg_Trail_counterexample :
    ∃ m m', ParseMessage 0 "PING :x\r\n\r\n".toList = .ok m ∧
      ParseMessage 0 m.RawMsg = .ok m' ∧ m'.Trail ≠ m.Trail :=
  ⟨{ Prefix := [], Nick := [], Ident := [], Host := [], Command := "PING".toList,
     Trail := "x\r\n".toList, Params := ["PING".toList], SentAt := 0,
     RawMsg := "PING :x\r\n".toList, IsParsed := true },
   { Prefix := [], Nick := [], Ident := [], Host := [], Command := "PING".toList,
     Trail := "x".toList, Params := ["PING".toList], SentAt := 0,
     RawMsg := "PING :x".toList, IsParsed := true },
   rfl, rfl, by decide⟩

/-- C7, amended: when `ParseMessage` decodes a line to `m`, it decodes `m.RawMsg` too,
to a message with the same `Command` and the same `Params`, whose `Trail` is
`m.Trail` without one trailing CR+LF; so the `Trail` is the same whenever `m.Trail`
does not end in CR+LF. -/
theorem ParseMessage_RawMsg_again (now now' : Nat) (line : Str) (m : Message)
    (h : ParseMessage now line = .ok m) :
    ∃ m', ParseMessage now' m.RawMsg = .ok m' ∧ m'.Command = m.Command ∧
      m'.Params = m.Params ∧ m'.Trail = TrimSuffix m.Trail crlf ∧
      (HasSuffix m.Trail crlf = false → m'.Trail = m.Trail) := by
  obtain ⟨o, c, ho, hc, rfl⟩ := (ParseMessage_ok_iff now line m).mp h
  generalize TrimSuffix line crlf = X at ho
  have key : ∃ m', ParseMessage now' X = .ok m' ∧ m'.Command = c.Command ∧
      m'.Params = c.Params ∧ m'.Trail = TrimSuffix (c.Trail.getD []) crlf := by
    rcases TrimSuffix_cases X crlf with ⟨hno, hX⟩ | hX
    · refine ⟨assemble now' X o c, ?_, rfl, rfl, ?_⟩
      · rw [ParseMessage_ok_iff]
        exact ⟨o, c, by rw [hX]; exact ho, hc, by rw [hX]⟩
      · cases hT : c.Trail with
        | none => simp [assemble, hT, TrimSuffix, HasSuffix, crlf]
        | some t =>
          have h1 : t <:+ o.rest := trailing_suffix ((commandView_Trail hc).symm.trans hT)
          have h2 := HasSuffix_false_of_suffix hno (h1.trans (originView_rest_suffix ho))
          simp [assemble, hT, TrimSuffix, h2]
    · generalize TrimSuffix X crlf = Y at hX
      subst hX
      by_cases hY : Y = []
      · subst hY
        have ho' : o = ⟨[], [], [], [], crlf⟩ := by
          have : originView ([] ++ crlf) = .ok ⟨[], [], [], [], crlf⟩ := rfl
          rw [this] at ho
          cases ho
          rfl
        subst ho'
        have : commandView crlf = .error .panic := rfl
        rw [this] at hc
        cases hc
      · rw [originView_append_crlf Y hY] at ho
        cases ho' : originView Y with
        | error e => simp [ho', Except.map] at ho
        | ok o' =>
          simp only [ho', Except.map, Except.ok.injEq] at ho
          subst ho
          rw [commandView_append_crlf] at hc
          cases hc' : commandView o'.rest with
          | error e => simp [hc', Except.map] at hc
          | ok c' =>
            simp only [hc', Except.map, Except.ok.injEq] at hc
            subst hc
            refine ⟨assemble now' Y o' c', ?_, rfl, rfl, ?_⟩
            · rw [ParseMessage_ok_iff, TrimSuffix_append]
              exact ⟨o', c', ho', hc', rfl⟩
            · cases hT : c'.Trail with
              | none => simp [assemble, hT, TrimSuffix, HasSuffix, crlf]
              | some t => simp [assemble, hT, TrimSuffix_append]
  obtain ⟨m', h1, h2, h3, h4⟩ := key
  refine ⟨m', h1, h2, h3, h4, fun hs => ?_⟩
  rw [h4]
  simp only [assemble] at hs ⊢
  simp [TrimSuffix, hs]

/-- C7, amended, at `":nick!user@host PRIVMSG #chan :hello there\r\n"`. -/
theorem ParseMessage_RawMsg_again_witness :
    ∃ m', ParseMessage 7 ":nick!user@host PRIVMSG #chan :hello there".toList = .ok m' ∧
      m'.Command = "PRIVMSG".toList ∧ m'.Params = ["#chan".toList] ∧
      m'.Trail = TrimSuffix "hello there".toList crlf ∧
      (HasSuffix "hello there".toList crlf = false → m'.Trail = "hello there".toList) :=
  ParseMessage_RawMsg_again 3 7 ":nick!user@host PRIVMSG #chan :hello there\r\n".toList
    { Prefix := "nick!user@host".toList, Nick := "nick".toList, Ident := "user".toList,
      Host := "host".toList, Command := "PRIVMSG".toList, Trail := "hello there".toList,
      Params := ["#chan".toList], SentAt := 3,
      RawMsg := ":nick!user@host PRIVMSG #chan :hello there".toList, IsParsed := true }
    rfl

/-- C8, as the claim states it, fails on `":srv PING"`: `RawMsg` is `":srv PING"`,
prefix included, and not the prefix-stripped `"PING"`. -/
theorem ParseMessage_RawMsg_counterexample :
    ∃ m, ParseMessage 0 ":srv PING".toList = .ok m ∧
      m.RawMsg = ":srv PING".toList ∧ remainder ":srv PING".toList = "PING".toList ∧
      m.RawMsg ≠ remainder ":srv PING".toList :=
  ⟨{ Prefix := "srv".toList, Nick := [], Ident := [], Host := [], Command := "PING".toList,
     Trail := [], Params := ["PING".toList], SentAt := 0,
     RawMsg := ":srv PING".toList, IsParsed := true },
   rfl, rfl, rfl, by decide⟩

/-- C8, amended: on a line that `ParseMessage` decodes, `RawMsg` is the input line
with its trailing CR+LF removed and the prefix kept: when it starts with `':'` it
is `':' + Prefix + ' '` followed by the prefix-stripped remainder, and otherwise it
is the prefix-stripped remainder itself. -/
theorem ParseMessage_RawMsg (now : Nat) (line : Str) (m : Message)
    (h : ParseMessage now line = .ok m) :
    m.RawMsg = TrimSuffix line crlf ∧
    (m.RawMsg.head? = some ':' → m.RawMsg = ':' :: (m.Prefix ++ ' ' :: remainder line)) ∧
    (m.RawMsg.head? ≠ some ':' → m.RawMsg = remainder line) := by
  obtain ⟨o, c, ho, hc, rfl⟩ := (ParseMessage_ok_iff now line m).mp h
  have hr := originView_rest ho
  show TrimSuffix line crlf = TrimSuffix line crlf ∧
    ((TrimSuffix line crlf).head? = some ':' →
      TrimSuffix line crlf = ':' :: (o.Prefix ++ ' ' :: remainder line)) ∧
    ((TrimSuffix line crlf).head? ≠ some ':' → TrimSuffix line crlf = remainder line)
  refine ⟨rfl, fun hh => ?_, fun hh => ?_⟩
  · cases hs : TrimSuffix line crlf with
    | nil => simp [hs] at hh
    | cons a t =>
      rw [hs] at hh ho
      simp only [List.head?_cons, Option.some.injEq] at hh
      subst hh
      have h3 := (originView_colon ho).2.2.1
      rw [← hr, ← h3]
  · rw [← hr, originView_plain ho hh]

/-- C8, amended, at `":srv PING\r\n"`. -/
theorem ParseMessage_RawMsg_witness :
    ":srv PING".toList = TrimSuffix ":srv PING\r\n".toList crlf ∧
    (":srv PING".toList.head? = some ':' →
      ":srv PING".toList = ':' :: ("srv".toList ++ ' ' :: remainder ":srv PING\r\n".toList)) ∧
    (":srv PING".toList.head? ≠ some ':' →
      ":srv PING".toList = remainder ":srv PING\r\n".toList) :=
  ParseMessage_RawMsg 0 ":srv PING\r\n".toList
    { Prefix := "srv".toList, Nick := [], Ident := [], Host := [], Command := "PING".toList,
      Trail := [], Params := ["PING".toList], SentAt := 0,
      RawMsg := ":srv PING".toList, IsParsed := true }
    rfl

/-- C9: on a line that `ParseMessage` decodes, when `Prefix` does not contain both a
`'!'` and an `'@'` (as when the line has no prefix, `Prefix` being empty), `Nick`,
`Ident` and `Host` are all empty. -/
theorem ParseMessage_no_partial_extraction (now : Nat) (line : Str) (m : Message)
    (h : ParseMessage now line = .ok m) (hno : ¬ ('!' ∈ m.Prefix ∧ '@' ∈ m.Prefix)) :
    m.Nick = [] ∧ m.Ident = [] ∧ m.Host = [] := by
  obtain ⟨o, c, ho, hc, rfl⟩ := (ParseMessage_ok_iff now line m).mp h
  exact originView_partial ho hno

/-- C9, at the line of the specification:
`":server.example.com NOTICE * :*** Looking up hostname"` decodes to
`Prefix = "server.example.com"`, `Command = "NOTICE"`, `Params = ["*"]`,
`Trail = "*** Looking up hostname"`, and `Nick`, `Ident`, `Host` are empty. -/
theorem ParseMessage_no_partial_extraction_witness :
    ParseMessage 0 ":server.example.com NOTICE * :*** Looking up hostname".toList =
      .ok { Prefix := "server.example.com".toList, Nick := [], Ident := [], Host := [],
            Command := "NOTICE".toList, Trail := "*** Looking up hostname".toList,
            Params := ["*".toList], SentAt := 0,
            RawMsg := ":server.example.com NOTICE * :*** Looking up hostname".toList,
            IsParsed := true } ∧
    ¬ ('!' ∈ "server.example.com".toList ∧ '@' ∈ "server.example.com".toList) ∧
    (([] : Str) = [] ∧ ([] : Str) = [] ∧ ([] : Str) = []) :=
  ⟨rfl, by decide,
   ParseMessage_no_partial_extraction 0
     ":server.example.com NOTICE * :*** Looking up hostname".toList
     { Prefix := "server.example.com".toList, Nick := [], Ident := [], Host := [],
       Command := "NOTICE".toList, Trail := "*** Looking up hostname".toList,
       Params := ["*".toList], SentAt := 0,
       RawMsg := ":server.example.com NOTICE * :*** Looking up hostname".toList,
       IsParsed := true }
     rfl (by decide)⟩

/-- C10: on a line that `ParseMessage` decodes: when the line starts with `':'`,
`Prefix` is the text between that `':'` and the first space of the line (the line
is `':' + Prefix + ' ' + rest` and `Prefix` has no space), and lines 69-81 run on
`rest` alone, its terminator stripped; when the line does not start with `':'`,
`Prefix` is empty and lines 69-81 run on the whole line, its terminator stripped. -/
theorem ParseMessage_Prefix (now : Nat) (line : Str) (m : Message)
    (h : ParseMessage now line = .ok m) :
    (line.head? = some ':' →
      ∃ rest, line = ':' :: (m.Prefix ++ ' ' :: rest) ∧ ' ' ∉ m.Prefix ∧
        parseCommand (beforeCommand m) (TrimSuffix rest crlf) = .ok m) ∧
    (line.head? ≠ some ':' →
      m.Prefix = [] ∧ parseCommand (beforeCommand m) (TrimSuffix line crlf) = .ok m) := by
  obtain ⟨o, c, ho, hc, rfl⟩ := (ParseMessage_ok_iff now line m).mp h
  obtain ⟨w, hw, htrim⟩ := TrimSuffix_split line
  have hpc := parseCommand_beforeCommand now (TrimSuffix line crlf) o c hc
  have hsuf := originView_rest_suffix ho
  cases hs : TrimSuffix line crlf with
  | nil => exact absurd hs (originView_nonempty ho)
  | cons a t =>
    rw [hs] at ho hw htrim hpc hsuf
    have hhead : line.head? = some a := by rw [hw]; rfl
    rw [hhead]
    constructor
    · intro ha
      simp only [Option.some.injEq] at ha
      subst ha
      obtain ⟨_, _, h3, h4⟩ := originView_colon ho
      refine ⟨o.rest ++ w, ?_, h4, ?_⟩
      · conv_lhs => rw [hw, h3]
        simp [assemble]
      · rw [htrim _ hsuf]
        exact hpc
    · intro ha
      have hplain := originView_plain ho (by simpa using ha)
      refine ⟨by rw [hplain]; rfl, ?_⟩
      have : o.rest = a :: t := by rw [hplain]
      rw [this] at hpc
      exact hpc

/-- C10, at `":irc.example.net 001 bob :Welcome"`, a line that starts with `':'`, and at
`"PING :12345"`, one that does not. -/
theorem ParseMessage_Prefix_witness :
    ((":irc.example.net 001 bob :Welcome".toList.head? = some ':' →
      ∃ rest, ":irc.example.net 001 bob :Welcome".toList
          = ':' :: ("irc.example.net".toList ++ ' ' :: rest) ∧
        ' ' ∉ "irc.example.net".toList ∧
        parseCommand
          (beforeCommand
            { Prefix := "irc.example.net".toList, Nick := [], Ident := [], Host := [],
              Command := "001".toList, Trail := "Welcome".toList, Params := ["bob".toList],
              SentAt := 5, RawMsg := ":irc.example.net 001 bob :Welcome".toList,
              IsParsed := true })
          (TrimSuffix rest crlf) =
        .ok { Prefix := "irc.example.net".toList, Nick := [], Ident := [], Host := [],
              Command := "001".toList, Trail := "Welcome".toList, Params := ["bob".toList],
              SentAt := 5, RawMsg := ":irc.example.net 001 bob :Welcome".toList,
              IsParsed := true }) ∧
     (":irc.example.net 001 bob :Welcome".toList.head? ≠ some ':' →
      "irc.example.net".toList = [] ∧
        parseCommand
          (beforeCommand
            { Prefix := "irc.example.net".toList, Nick := [], Ident := [], Host := [],
              Command := "001".toList, Trail := "Welcome".toList, Params := ["bob".toList],
              SentAt := 5, RawMsg := ":irc.example.net 001 bob :Welcome".toList,
              IsParsed := true })
          (TrimSuffix ":irc.example.net 001 bob :Welcome".toList crlf) =
        .ok { Prefix := "irc.example.net".toList, Nick := [], Ident := [], Host := [],
              Command := "001".toList, Trail := "Welcome".toList, Params := ["bob".toList],
              SentAt := 5, RawMsg := ":irc.example.net 001 bob :Welcome".toList,
              IsParsed := true })) ∧
    ("PING :12345".toList.head? ≠ some ':' ∧
      ([] : Str) = [] ∧
      parseCommand
        (beforeCommand
          { Prefix := [], Nick := [], Ident := [], Host := [], Command := "PING".toList,
            Trail := "12345".toList, Params := ["PING".toList], SentAt := 5,
            RawMsg := "PING :12345".toList, IsParsed := true })
        (TrimSuffix "PING :12345".toList crlf) =
      .ok { Prefix := [], Nick := [], Ident := [], Host := [], Command := "PING".toList,
            Trail := "12345".toList, Params := ["PING".toList], SentAt := 5,
            RawMsg := "PING :12345".toList, IsParsed := true }) :=
  ⟨ParseMessage_Prefix 5 ":irc.example.net 001 bob :Welcome".toList _ rfl,
   by decide,
   (ParseMessage_Prefix 5 "PING :12345".toList _ rfl).2 (by decide)⟩

/-- C11: every message that `ParseMessage` returns has `IsParsed = true` and a
`Command` that is non-empty, holds no white space, and is the first
white-space-delimited token of the prefix-stripped remainder: the first element of
`strings.Fields` of it, standing after white space only and followed by white space
or by the end. -/
theorem ParseMessage_Command (now : Nat) (line : Str) (m : Message)
    (h : ParseMessage now line = .ok m) :
    m.IsParsed = true ∧ m.Command ≠ [] ∧ (∀ c ∈ m.Command, IsSpace c = false) ∧
    (Fields (remainder line)).head? = some m.Command ∧
    ∃ sp rest, remainder line = sp ++ m.Command ++ rest ∧ (∀ c ∈ sp, IsSpace c = true) ∧
      (∀ c, rest.head? = some c → IsSpace c = true) := by
  obtain ⟨o, c, ho, hc, rfl⟩ := (ParseMessage_ok_iff now line m).mp h
  obtain ⟨tok, ts, hf, hcmd, _, _⟩ := commandView_ok hc
  rw [originView_rest ho] at hf
  have htok := Fields_token _ tok (by rw [hf]; simp)
  have hhead := Fields_remainder_head _ tok ts hf
  simp only [assemble, hcmd]
  exact ⟨trivial, htok.1, htok.2, hhead.1, hhead.2⟩

/-- C11, at `":nick!user@host   PRIVMSG #chan :hello there"`: the command is
`"PRIVMSG"`. -/
theorem ParseMessage_Command_witness :
    ∃ m, ParseMessage 0 ":nick!user@host   PRIVMSG #chan :hello there".toList = .ok m ∧
      m.Command = "PRIVMSG".toList ∧
      (m.IsParsed = true ∧ m.Command ≠ [] ∧ (∀ c ∈ m.Command, IsSpace c = false) ∧
        (Fields (remainder ":nick!user@host   PRIVMSG #chan :hello there".toList)).head?
          = some m.Command ∧
        ∃ sp rest, remainder ":nick!user@host   PRIVMSG #chan :hello there".toList
            = sp ++ m.Command ++ rest ∧ (∀ c ∈ sp, IsSpace c = true) ∧
          (∀ c, rest.head? = some c → IsSpace c = true)) :=
  ⟨{ Prefix := "nick!user@host".toList, Nick := "nick".toList, Ident := "user".toList,
     Host := "host".toList, Command := "PRIVMSG".toList, Trail := "hello there".toList,
     Params := ["#chan".toList], SentAt := 0,
     RawMsg := ":nick!user@host   PRIVMSG #chan :hello there".toList, IsParsed := true },
   rfl, rfl,
   ParseMessage_Command 0 ":nick!user@host   PRIVMSG #chan :hello there".toList _ rfl⟩

/-- C12: on a line that `ParseMessage` decodes, every element of `Params` is non-empty
and free of white space, and `Params` is a final part of the token list
`strings.Fields` of the command+middle segment, in the same order; that segment
holds no `" :"`, and the remainder is the segment followed by `" :"` and `Trail`
(or is the segment itself when it holds no `" :"`), so nothing of the trailing
argument is among the parameters. -/
theorem ParseMessage_Params_tokens (now : Nat) (line : Str) (m : Message)
    (h : ParseMessage now line = .ok m) :
    (∀ p ∈ m.Params, p ≠ [] ∧ ∀ c ∈ p, IsSpace c = false) ∧
    m.Params <:+ Fields (cmdSegment (remainder line)) ∧
    ¬ trailSep <:+: cmdSegment (remainder line) ∧
    ((¬ trailSep <:+: remainder line ∧ cmdSegment (remainder line) = remainder line) ∨
      remainder line = cmdSegment (remainder line) ++ trailSep ++ m.Trail) := by
  obtain ⟨o, c, ho, hc, rfl⟩ := (ParseMessage_ok_iff now line m).mp h
  obtain ⟨tok, ts, hf, _, hpar, htr⟩ := commandView_ok hc
  rw [originView_rest ho] at hf htr
  have hsuf : c.Params <:+ Fields (cmdSegment (remainder line)) := by
    rw [hpar, hf]
    split
    · rename_i hts
      rw [hts]
    · exact List.suffix_cons tok ts
  have hsplit := cmdSegment_split (remainder line)
  refine ⟨fun p hp => Fields_token _ p (hsuf.subset hp), hsuf, hsplit.1, ?_⟩
  rcases hsplit.2 with ⟨h1, h2, _⟩ | ⟨t, h1, h2⟩
  · exact Or.inl ⟨h1, h2⟩
  · right
    simp only [assemble, htr, h1, Option.getD_some]
    exact h2

/-- C12, at `"MODE   #chan +o\tbob :not a param"`: the parameters are `"#chan"`,
`"+o"` and `"bob"`. -/
theorem ParseMessage_Params_tokens_witness :
    ∃ m, ParseMessage 0 "MODE   #chan +o\tbob :not a param".toList = .ok m ∧
      m.Params = ["#chan".toList, "+o".toList, "bob".toList] ∧
      ((∀ p ∈ m.Params, p ≠ [] ∧ ∀ c ∈ p, IsSpace c = false) ∧
        m.Params <:+ Fields (cmdSegment (remainder "MODE   #chan +o\tbob :not a param".toList)) ∧
        ¬ trailSep <:+: cmdSegment (remainder "MODE   #chan +o\tbob :not a param".toList) ∧
        ((¬ trailSep <:+: remainder "MODE   #chan +o\tbob :not a param".toList ∧
            cmdSegment (remainder "MODE   #chan +o\tbob :not a param".toList)
              = remainder "MODE   #chan +o\tbob :not a param".toList) ∨
          remainder "MODE   #chan +o\tbob :not a param".toList
            = cmdSegment (remainder "MODE   #chan +o\tbob :not a param".toList)
                ++ trailSep ++ m.Trail)) :=
  ⟨{ Prefix := [], Nick := [], Ident := [], Host := [], Command := "MODE".toList,
     Trail := "not a param".toList, Params := ["#chan".toList, "+o".toList, "bob".toList],
     SentAt := 0, RawMsg := "MODE   #chan +o\tbob :not a param".toList, IsParsed := true },
   rfl, rfl,
   ParseMessage_Params_tokens 0 "MODE   #chan +o\tbob :not a param".toList _ rfl⟩

/-- C13, as the claim states it, fails on `"PING"`: the message decoded from
`"PING :"` (an empty trailing argument) and the one decoded from `"PING"` (no
trailing argument) have the same `Trail`, the empty string. -/
theorem ParseMessage_empty_Trail_counterexample :
    ∃ m m', ParseMessage 0 "PING".toList = .ok m ∧
      ParseMessage 0 ("PING".toList ++ " :".toList) = .ok m' ∧
      m'.Trail = m.Trail ∧ m'.Trail = [] :=
  ⟨{ Prefix := [], Nick := [], Ident := [], Host := [], Command := "PING".toList,
     Trail := [], Params := ["PING".toList], SentAt := 0,
     RawMsg := "PING".toList, IsParsed := true },
   { Prefix := [], Nick := [], Ident := [], Host := [], Command := "PING".toList,
     Trail := [], Params := ["PING".toList], SentAt := 0,
     RawMsg := "PING :".toList, IsParsed := true },
   rfl, rfl, rfl, rfl⟩

/-- C13, amended: an empty trailing argument is not told apart from an absent one.
When `ParseMessage` decodes a line `seg` whose prefix-stripped remainder holds no
`" :"`, it decodes `seg + " :"` as well, and both messages have the empty `Trail`,
the same `Command` and the same `Params`. -/
theorem ParseMessage_empty_Trail_as_absent (now now' : Nat) (seg : Str) (m : Message)
    (h : ParseMessage now seg = .ok m) (hno : ¬ trailSep <:+: remainder seg) :
    ∃ m', ParseMessage now' (seg ++ trailSep) = .ok m' ∧ m'.Trail = [] ∧ m.Trail = [] ∧
      m'.Command = m.Command ∧ m'.Params = m.Params := by
  obtain ⟨o, c, ho, hc, rfl⟩ := (ParseMessage_ok_iff now seg m).mp h
  have hrest := originView_rest ho
  have hu : ∃ u, (u = [] ∨ u = crlf) ∧ seg = TrimSuffix seg crlf ++ u := by
    rcases TrimSuffix_cases seg crlf with ⟨_, hX⟩ | hX
    · exact ⟨[], Or.inl rfl, by simp [hX]⟩
    · exact ⟨crlf, Or.inr rfl, hX⟩
  obtain ⟨u, hu, hseg⟩ := hu
  have htrim : TrimSuffix (seg ++ trailSep) crlf = seg ++ trailSep := by
    simp [TrimSuffix, HasSuffix_trailSep_crlf]
  have ho' := originView_append ho (u ++ trailSep)
  rw [← List.append_assoc, ← hseg] at ho'
  have hc' := commandView_append_trailSep (hrest ▸ hno) hu
  rw [hc] at hc'
  have htr : c.Trail = none := by
    rw [commandView_Trail hc, hrest]
    rcases (cmdSegment_split (remainder seg)).2 with ⟨_, _, h3⟩ | ⟨t, _, h2⟩
    · exact h3
    · exact absurd ⟨_, _, h2.symm⟩ hno
  refine ⟨assemble now' (seg ++ trailSep) { o with rest := o.rest ++ (u ++ trailSep) }
    { c with Trail := some [] }, ?_, rfl, by simp [assemble, htr], rfl, rfl⟩
  rw [ParseMessage_ok_iff, htrim]
  exact ⟨_, _, ho', hc', rfl⟩

/-- C13, amended, at `":srv PING\r\n"`. -/
theorem ParseMessage_empty_Trail_as_absent_witness :
    ¬ trailSep <:+: remainder ":srv PING\r\n".toList ∧
    ∃ m', ParseMessage 9 (":srv PING\r\n".toList ++ trailSep) = .ok m' ∧ m'.Trail = [] ∧
      ([] : Str) = [] ∧ m'.Command = "PING".toList ∧ m'.Params = ["PING".toList] :=
  ⟨by decide,
   ParseMessage_empty_Trail_as_absent 4 9 ":srv PING\r\n".toList
     { Prefix := "srv".toList, Nick := [], Ident := [], Host := [], Command := "PING".toList,
       Trail := [], Params := ["PING".toList], SentAt := 4,
       RawMsg := ":srv PING".toList, IsParsed := true }
     rfl (by decide)⟩

/-- C14: for a line that does not end in CR+LF, `ParseMessage` on the line followed
by CR+LF has the outcome it has on the line itself: the same failure, or the same
message up to `SentAt` (`RawMsg` included, which carries no terminator). -/
theorem ParseMessage_terminator (now now' : Nat) (line : Str)
    (h : HasSuffix line crlf = false) :
    ParseMessage now (line ++ crlf) =
      (ParseMessage now' line).map fun m => { m with SentAt := now } := by
  rw [← ParseMessage_clock now now' line]
  have h1 : TrimSuffix (line ++ crlf) crlf = TrimSuffix line crlf := by
    rw [TrimSuffix_append]
    simp [TrimSuffix, h]
  simp only [ParseMessage, h1]

/-- C14, at `":srv NOTICE * :hi"`. -/
theorem ParseMessage_terminator_witness :
    HasSuffix ":srv NOTICE * :hi".toList crlf = false ∧
    ParseMessage 1 (":srv NOTICE * :hi".toList ++ crlf) =
      (ParseMessage 2 ":srv NOTICE * :hi".toList).map fun m => { m with SentAt := 1 } :=
  ⟨by decide, ParseMessage_terminator 1 2 ":srv NOTICE * :hi".toList (by decide)⟩

/-- C15: `m.GetDMString(b)` is exactly `"PRIVMSG " + m.Nick + " :" + b`, whatever the
nick and the body hold and with nothing appended; with the nick `"alice"` and the
body `"hello there"` it is `"PRIVMSG alice :hello there"`. -/
theorem GetDMString_eq (m : Message) (b : Str) :
    GetDMString m b = "PRIVMSG ".toList ++ m.Nick ++ " :".toList ++ b ∧
    GetDMString { m with Nick := "alice".toList } "hello there".toList
      = "PRIVMSG alice :hello there".toList := by
  constructor
  · simp [GetDMString, Sprintf]
  · simp [GetDMString, Sprintf]

/-- C16: on a line whose first character is a space `ParseMessage` returns
`CannotParseMessageError`, and no message. -/
theorem ParseMessage_leading_space (now : Nat) (line : Str) (h : line.head? = some ' ') :
    ParseMessage now line = .error .CannotParseMessageError := by
  cases line with
  | nil => simp at h
  | cons a t =>
    simp only [List.head?_cons, Option.some.injEq] at h
    subst h
    obtain ⟨t', ht, _⟩ := TrimSuffix_head (t := t) (by decide : ' ' ≠ '\r')
    rw [ParseMessage_eq, ht]
    rfl

/-- C16, at `" PING :1"`. -/
theorem ParseMessage_leading_space_witness :
    " PING :1".toList.head? = some ' ' ∧
    ParseMessage 0 " PING :1".toList = .error .CannotParseMessageError :=
  ⟨rfl, ParseMessage_leading_space 0 " PING :1".toList rfl⟩

/-- C17: on a line whose first character is `':'` and which holds no space
`ParseMessage` returns `CannotParseMessageError`, and no message. -/
theorem ParseMessage_prefix_without_space (now : Nat) (line : Str)
    (h1 : line.head? = some ':') (h2 : ' ' ∉ line) :
    ParseMessage now line = .error .CannotParseMessageError := by
  cases line with
  | nil => simp at h1
  | cons a t =>
    simp only [List.head?_cons, Option.some.injEq] at h1
    subst h1
    obtain ⟨t', ht, hpre⟩ := TrimSuffix_head (t := t) (by decide : ':' ≠ '\r')
    have hidx : Index (':' :: t') [' '] = none :=
      Index_one_eq_none fun hm => h2 (hpre.subset hm)
    rw [ParseMessage_eq, ht]
    simp [originView, hidx]

/-- C17, at `":prefix"`. -/
theorem ParseMessage_prefix_without_space_witness :
    ":prefix".toList.head? = some ':' ∧ ' ' ∉ ":prefix".toList ∧
    ParseMessage 0 ":prefix".toList = .error .CannotParseMessageError :=
  ⟨rfl, by decide, ParseMessage_prefix_without_space 0 ":prefix".toList rfl (by decide)⟩

/-- C19: on a line that `ParseMessage` decodes: when the command+middle segment has
exactly one token, `Params` is the one-element list with the command itself; when
it has two tokens or more, `Params` is the token list without its first element;
so `Params` is never empty. -/
theorem ParseMessage_Params_shape (now : Nat) (line : Str) (m : Message)
    (h : ParseMessage now line = .ok m) :
    ((Fields (cmdSegment (remainder line))).length = 1 → m.Params = [m.Command]) ∧
    (2 ≤ (Fields (cmdSegment (remainder line))).length →
      m.Params = (Fields (cmdSegment (remainder line))).tail) ∧
    m.Params ≠ [] := by
  obtain ⟨o, c, ho, hc, rfl⟩ := (ParseMessage_ok_iff now line m).mp h
  obtain ⟨tok, ts, hf, hcmd, hpar, _⟩ := commandView_ok hc
  rw [originView_rest ho] at hf
  simp only [assemble, hf, hcmd, hpar, List.length_cons, List.tail_cons]
  refine ⟨fun hl => ?_, fun hl => ?_, ?_⟩
  · have : ts = [] := List.length_eq_zero.mp (by omega)
    simp [this]
  · have : ts ≠ [] := fun hts => by simp [hts] at hl
    simp [this]
  · split
    · simp
    · assumption

/-- C19, at `"PING :12345"`, one token, and at `":srv MODE #chan +o"`, three. -/
theorem ParseMessage_Params_shape_witness :
    (∃ m, ParseMessage 0 "PING :12345".toList = .ok m ∧ m.Params = ["PING".toList] ∧
      (((Fields (cmdSegment (remainder "PING :12345".toList))).length = 1 →
          m.Params = [m.Command]) ∧
        (2 ≤ (Fields (cmdSegment (remainder "PING :12345".toList))).length →
          m.Params = (Fields (cmdSegment (remainder "PING :12345".toList))).tail) ∧
        m.Params ≠ [])) ∧
    (∃ m, ParseMessage 0 ":srv MODE #chan +o".toList = .ok m ∧
      m.Params = ["#chan".toList, "+o".toList] ∧
      (((Fields (cmdSegment (remainder ":srv MODE #chan +o".toList))).length = 1 →
          m.Params = [m.Command]) ∧
        (2 ≤ (Fields (cmdSegment (remainder ":srv MODE #chan +o".toList))).length →
          m.Params = (Fields (cmdSegment (remainder ":srv MODE #chan +o".toList))).tail) ∧
        m.Params ≠ [])) :=
  ⟨⟨{ Prefix := [], Nick := [], Ident := [], Host := [], Command := "PING".toList,
      Trail := "12345".toList, Params := ["PING".toList], SentAt := 0,
      RawMsg := "PING :12345".toList, IsParsed := true },
    rfl, rfl, ParseMessage_Params_shape 0 "PING :12345".toList _ rfl⟩,
   ⟨{ Prefix := "srv".toList, Nick := [], Ident := [], Host := [], Command := "MODE".toList,
      Trail := [], Params := ["#chan".toList, "+o".toList], SentAt := 0,
      RawMsg := ":srv MODE #chan +o".toList, IsParsed := true },
    rfl, rfl, ParseMessage_Params_shape 0 ":srv MODE #chan +o".toList _ rfl⟩⟩

/-- C20: on a line that `ParseMessage` decodes and whose `Prefix` holds both `'!'` and
`'@'`, the first `'!'` stands before the first `'@'`, `Nick` holds neither `'!'`
nor `'@'`, `Ident` holds no `'@'`, and `Nick + "!" + Ident + "@" + Host` is
`Prefix`. -/
theorem ParseMessage_Nick_Ident_Host (now : Nat) (line : Str) (m : Message)
    (h : ParseMessage now line = .ok m) (hb : '!' ∈ m.Prefix) (ha : '@' ∈ m.Prefix) :
    (∃ n u, Index m.Prefix ['!'] = some n ∧ Index m.Prefix ['@'] = some u ∧ n < u) ∧
    '!' ∉ m.Nick ∧ '@' ∉ m.Nick ∧ '@' ∉ m.Ident ∧
    m.Nick ++ '!' :: (m.Ident ++ '@' :: m.Host) = m.Prefix := by
  obtain ⟨o, c, ho, hc, rfl⟩ := (ParseMessage_ok_iff now line m).mp h
  obtain ⟨n, u, hn, hu, hnu, h1, h2, h3⟩ := originView_both ho hb ha
  obtain ⟨p1, p2, p3, p4⟩ := Index_order_parts hn hu hnu
  simp only [assemble, h1, h2, h3]
  exact ⟨⟨n, u, hn, hu, by omega⟩, p1, p2, p3, p4⟩

/-- C20, at `":nick!user@host COMMAND a b c"`. -/
theorem ParseMessage_Nick_Ident_Host_witness :
    ∃ m, ParseMessage 0 ":nick!user@host COMMAND a b c".toList = .ok m ∧
      m.Nick = "nick".toList ∧ m.Ident = "user".toList ∧ m.Host = "host".toList ∧
      ((∃ n u, Index m.Prefix ['!'] = some n ∧ Index m.Prefix ['@'] = some u ∧ n < u) ∧
        '!' ∉ m.Nick ∧ '@' ∉ m.Nick ∧ '@' ∉ m.Ident ∧
        m.Nick ++ '!' :: (m.Ident ++ '@' :: m.Host) = m.Prefix) :=
  ⟨{ Prefix := "nick!user@host".toList, Nick := "nick".toList, Ident := "user".toList,
     Host := "host".toList, Command := "COMMAND".toList, Trail := [],
     Params := ["a".toList, "b".toList, "c".toList], SentAt := 0,
     RawMsg := ":nick!user@host COMMAND a b c".toList, IsParsed := true },
   rfl, rfl, rfl, rfl,
   ParseMessage_Nick_Ident_Host 0 ":nick!user@host COMMAND a b c".toList _ rfl
     (by decide) (by decide)⟩

/-- C18: the exact fault set.  With `s` the input without one trailing CR+LF,
`ParseMessage` panics if and only if (a) `s` is empty, or (b) `s` starts with `':'`,
contains a space and has an origin with both `'!'` and `'@'`, the first `'@'` before
the first `'!'`, or (c) `s` is non-empty, does not start with a space, is not in
case (b), contains a space when it starts with `':'`, and the part of the
prefix-stripped remainder before its first `" :"` holds white space only.  On
every other input it returns a message or `CannotParseMessageError`. -/
theorem ParseMessage_panic_iff (now : Nat) (line : Str) :
    (ParseMessage now line = .error .panic ↔
      TrimSuffix line crlf = [] ∨ reversedOrigin (TrimSuffix line crlf) ∨ noToken line) ∧
    (¬ (TrimSuffix line crlf = [] ∨ reversedOrigin (TrimSuffix line crlf) ∨ noToken line) →
      (∃ m, ParseMessage now line = .ok m) ∨
        ParseMessage now line = .error .CannotParseMessageError) := by
  have key : ParseMessage now line = .error .panic ↔
      TrimSuffix line crlf = [] ∨ reversedOrigin (TrimSuffix line crlf) ∨ noToken line := by
    have hp := originView_panic_iff (TrimSuffix line crlf)
    have hok := originView_ok_iff (TrimSuffix line crlf)
    rw [ParseMessage_eq]
    unfold noToken
    cases hov : originView (TrimSuffix line crlf) with
    | error e =>
      rw [hov] at hp hok
      have hno : ¬ (TrimSuffix line crlf ≠ [] ∧ (TrimSuffix line crlf).head? ≠ some ' ' ∧
          ¬ reversedOrigin (TrimSuffix line crlf) ∧
          ((TrimSuffix line crlf).head? = some ':' → ' ' ∈ TrimSuffix line crlf)) := by
        intro h
        obtain ⟨o, ho⟩ := hok.mpr h
        cases ho
      simp only
      constructor
      · intro h
        have he : e = .panic := Except.error.inj h
        subst he
        rcases hp.mp rfl with h1 | h1
        · exact Or.inl h1
        · exact Or.inr (Or.inl h1)
      · rintro (h | h | ⟨h1, h2, h3, h4, _⟩)
        · rw [Except.error.inj (hp.mpr (Or.inl h))]
        · rw [Except.error.inj (hp.mpr (Or.inr h))]
        · exact absurd ⟨h1, h2, h3, h4⟩ hno
    | ok o =>
      rw [hov] at hp hok
      have hall := hok.mp ⟨o, rfl⟩
      have hnp : ¬ (TrimSuffix line crlf = [] ∨ reversedOrigin (TrimSuffix line crlf)) := by
        intro h
        have := hp.mpr h
        cases this
      have hrest := originView_rest hov
      simp only
      cases hcv : commandView o.rest with
      | ok c =>
        have hf : Fields (cmdSegment (remainder line)) ≠ [] := by
          obtain ⟨tok, ts, hf, _⟩ := commandView_ok hcv
          rw [hrest] at hf
          simp [hf]
        simp only [reduceCtorEq, false_iff]
        rintro (h | h | ⟨_, _, _, _, h5⟩)
        · exact hnp (Or.inl h)
        · exact hnp (Or.inr h)
        · exact hf ((Fields_eq_nil_iff _).mpr h5)
      | error e =>
        obtain ⟨he, hf⟩ := commandView_error.mp hcv
        subst he
        rw [hrest] at hf
        simp only [true_iff]
        exact Or.inr (Or.inr ⟨hall.1, hall.2.1, hall.2.2.1, hall.2.2.2,
          (Fields_eq_nil_iff _).mp hf⟩)
  refine ⟨key, fun hno => ?_⟩
  cases hres : ParseMessage now line with
  | ok m => exact Or.inl ⟨m, rfl⟩
  | error e =>
    cases e with
    | CannotParseMessageError => exact Or.inr rfl
    | panic => exact absurd (key.mp hres) hno

/-- C18, at `":srv  :hello"`, which panics and so is in the fault set, and at
`"PING :12345"`, which does not and so is not. -/
theorem ParseMessage_panic_iff_witness :
    (TrimSuffix ":srv  :hello".toList crlf = [] ∨
      reversedOrigin (TrimSuffix ":srv  :hello".toList crlf) ∨
      noToken ":srv  :hello".toList) ∧
    ¬ (TrimSuffix "PING :12345".toList crlf = [] ∨
      reversedOrigin (TrimSuffix "PING :12345".toList crlf) ∨
      noToken "PING :12345".toList) :=
  ⟨(ParseMessage_panic_iff 0 ":srv  :hello".toList).1.mp rfl,
   fun h => by
     have h1 := (ParseMessage_panic_iff 0 "PING :12345".toList).1.mpr h
     cases h1⟩

end Ircmsg
